import Mathlib

/-!
Verification development for the worddiff repository (src/worddiff.py).

The program renders a side-by-side word-level diff of two text files. This
file gives a shallow embedding of the program in Lean: each Python function
of worddiff.py is translated to a Lean definition of the same name, and the
standard-library collaborators it calls (difflib.SequenceMatcher, textwrap,
configparser value coercion, termcolor.colored, str.split and friends) are
modelled faithfully for the inputs the program can ever pass them.  Python
strings are modelled as Lean String / List Char (the program handles plain
text), Python ints as Nat or Int where overflow and negativity matter, and
code paths that raise exceptions return Except or Option.
-/

namespace Worddiff

/-! ## Python string primitives -/

/-- ASCII whitespace recognized by Python str.split() / str.strip()
(the program only feeds it text read from files; the unicode whitespace
code points behave identically and never change membership for ASCII). -/
def isPySpace (c : Char) : Bool :=
  c = ' ' || c = '\t' || c = '\n' || c = '\r' || c = '\x0b' || c = '\x0c'

/-- Python str.strip() on a char list: whitespace removed from both ends. -/
def pyStripChars (l : List Char) : List Char :=
  ((l.dropWhile isPySpace).reverse.dropWhile isPySpace).reverse

/-- Python str.strip(). -/
def pyStrip (s : String) : String := String.mk (pyStripChars s.data)

/-- Worker for Python str.split() with no separator: splits on runs of
whitespace and never yields empty words.  cur holds the current word
reversed. -/
def pySplitAux : List Char → List Char → List (List Char)
  | [], cur => if cur.isEmpty then [] else [cur.reverse]
  | c :: cs, cur =>
    if isPySpace c then
      if cur.isEmpty then pySplitAux cs [] else cur.reverse :: pySplitAux cs []
    else pySplitAux cs (c :: cur)

/-- Python str.split() (no argument form) on a char list. -/
def pySplitChars (l : List Char) : List (List Char) := pySplitAux l []

/-- Python str.split() (no argument form). -/
def pySplit (s : String) : List String := (pySplitChars s.data).map String.mk

/-- Python sep.join(words) for the single-space separator, on char lists. -/
def joinSp : List (List Char) → List Char
  | [] => []
  | [w] => w
  | w :: ws => w ++ ' ' :: joinSp ws

/-- Python str.split(sep) for a one-character separator: keeps empty pieces. -/
def splitSepChars (sep : Char) : List Char → List (List Char)
  | [] => [[]]
  | c :: cs =>
    if c = sep then [] :: splitSepChars sep cs
    else (splitSepChars sep cs).modifyHead (c :: ·)

/-- Python str.split(sep) for a one-character separator. -/
def pySplitSep (s : String) (sep : Char) : List String :=
  (splitSepChars sep s.data).map String.mk

/-! ## worddiff.py: preprocess_line (lines 74-75) -/

/-- Python: return ' '.join(line.split()). -/
def preprocess_line (line : String) : String :=
  String.mk (joinSp (pySplitChars line.data))

/-! ## ANSI escape stripping (worddiff.py lines 46-48)

The source strips escapes with re.sub of the pattern: ESC, one byte in
0x40-0x5f, a greedy run of bytes in 0x30-0x3f, a greedy run of bytes in
0x20-0x2f, then one byte in 0x40-0x7e.  Because the three repeated or
final classes are pairwise disjoint character ranges, the greedy
quantifiers never need to backtrack, so taking maximal runs is exact. -/

/-- Regex char class of parameter bytes (0x30-0x3f). -/
def isCsiParam (c : Char) : Bool := '0' ≤ c && c ≤ '?'

/-- Regex char class of intermediate bytes (0x20-0x2f). -/
def isCsiInter (c : Char) : Bool := ' ' ≤ c && c ≤ '/'

/-- Regex char class of final bytes (0x40-0x7e). -/
def isCsiFinal (c : Char) : Bool := '@' ≤ c && c ≤ '~'

/-- Regex char class of the byte after ESC (0x40-0x5f). -/
def isEscIntro (c : Char) : Bool := '@' ≤ c && c ≤ '_'

/-- Attempt of the ANSI-escape regex at the head of the list; some rest
means a match was consumed leaving rest. -/
def matchEsc : List Char → Option (List Char)
  | c0 :: c1 :: rest =>
    if c0 = '\x1b' && isEscIntro c1 then
      match (rest.dropWhile isCsiParam).dropWhile isCsiInter with
      | f :: r3 => if isCsiFinal f then some r3 else none
      | [] => none
    else none
  | _ => none

theorem length_dropWhile_le (p : α → Bool) (l : List α) :
    (l.dropWhile p).length ≤ l.length := by
  induction l with
  | nil => simp [List.dropWhile]
  | cons c cs ih =>
    by_cases h : p c
    · simp [List.dropWhile, h]; omega
    · simp [List.dropWhile, h]

theorem matchEsc_length_lt {l rest : List Char} (h : matchEsc l = some rest) :
    rest.length < l.length := by
  match l with
  | [] => simp [matchEsc] at h
  | [c] => simp [matchEsc] at h
  | c0 :: c1 :: r =>
    cases hc : (decide (c0 = '\x1b') && isEscIntro c1) with
    | false => simp [matchEsc, hc] at h
    | true =>
      have h1 := length_dropWhile_le isCsiParam r
      have h2 := length_dropWhile_le isCsiInter (r.dropWhile isCsiParam)
      cases hm : (r.dropWhile isCsiParam).dropWhile isCsiInter with
      | nil => simp [matchEsc, hc, hm] at h
      | cons f r3 =>
        cases hf : isCsiFinal f with
        | false => simp [matchEsc, hc, hm, hf] at h
        | true =>
          simp [matchEsc, hc, hm, hf] at h
          subst h
          rw [hm] at h2
          simp [List.length_cons] at h2 ⊢
          omega

/-- Scan of re.sub: at each position try the regex; on a match drop it and
continue after it, otherwise keep the char and move one right. -/
def stripAnsiChars (l : List Char) : List Char :=
  match h : matchEsc l with
  | some rest => stripAnsiChars rest
  | none =>
    match l with
    | [] => []
    | c :: cs => c :: stripAnsiChars cs
termination_by l.length
decreasing_by
· exact matchEsc_length_lt h
· simp

/-- Python strip_ansi_codes (lines 46-48). -/
def strip_ansi_codes (text : String) : String := String.mk (stripAnsiChars text.data)

/-- Visible length: character count after stripping ANSI style markers. -/
def visibleLen (text : String) : Nat := (strip_ansi_codes text).length

/-! ## pad_text (worddiff.py lines 65-68) -/

/-- Python pad_text: right-pad with spaces up to width measured by visible
length; unchanged when no padding is needed (padding_needed <= 0). -/
def pad_text (text : String) (width : Nat) : String :=
  let visible_length := visibleLen text
  if visible_length < width then
    text ++ String.mk (List.replicate (width - visible_length) ' ')
  else text

/-! ## Styling helpers: termcolor.colored, underline_text (line 58-59) -/

/-- Code of a termcolor color name (termcolor COLORS table).  An unknown
name raises KeyError in Python; the program only passes names coming from
its color configuration, and every claim proved below is insensitive to
the branch taken for unknown names. -/
def colorCode (color : String) : Option Nat :=
  if color = "grey" then some 30
  else if color = "red" then some 31
  else if color = "green" then some 32
  else if color = "yellow" then some 33
  else if color = "blue" then some 34
  else if color = "magenta" then some 35
  else if color = "cyan" then some 36
  else if color = "white" then some 37
  else none

/-- termcolor.colored(text, color) = '\033[<code>m' + text + '\033[0m'. -/
def colored (text color : String) : String :=
  match colorCode color with
  | some n => "\x1b[" ++ toString n ++ "m" ++ text ++ "\x1b[0m"
  | none => text

/-- Python underline_text (lines 58-59). -/
def underline_text (text : String) (underline : Bool) : String :=
  if underline then "\x1b[4m" ++ text ++ "\x1b[0m" else text

/-! ## parse (worddiff.py lines 61-63) -/

/-- Python parse: split on commas; a single piece is doubled (colors * 2). -/
def parse (color_str : String) : List String :=
  let colors := pySplitSep color_str ','
  if 1 < colors.length then colors else colors ++ colors

/-! ## Configuration resolution (worddiff.py lines 27-43) -/

/-- Python str.lower() restricted to ASCII (configuration values are
plain ASCII option strings). -/
def pyLowerChar (c : Char) : Char :=
  if 'A' ≤ c && c ≤ 'Z' then Char.ofNat (c.toNat + 32) else c

/-- Python str.lower() on a whole string. -/
def pyLower (s : String) : String := String.mk (s.data.map pyLowerChar)

/-- configparser getboolean coercion (BOOLEAN_STATES); none models the
ValueError raised on any other value. -/
def getboolean (value : String) : Option Bool :=
  let v := pyLower value
  if v = "1" || v = "yes" || v = "true" || v = "on" then some true
  else if v = "0" || v = "no" || v = "false" || v = "off" then some false
  else none

/-- Helper of Python int(str): digits with single underscores allowed
between digits, accumulating the value. -/
def pyDigitsGo : List Char → Nat → Option Nat
  | [], acc => some acc
  | '_' :: c :: cs, acc =>
    if c.isDigit then pyDigitsGo cs (acc * 10 + (c.toNat - 48)) else none
  | c :: cs, acc =>
    if c.isDigit then pyDigitsGo cs (acc * 10 + (c.toNat - 48)) else none

/-- Nonempty digit group of Python int(str). -/
def pyIntDigits : List Char → Option Nat
  | [] => none
  | c :: cs => if c.isDigit then pyDigitsGo cs (c.toNat - 48) else none

/-- Python int(str): surrounding whitespace stripped, optional sign,
decimal digits; none models the ValueError on malformed input. -/
def pyIntOpt (s : String) : Option Int :=
  match pyStripChars s.data with
  | '+' :: rest => (pyIntDigits rest).map Int.ofNat
  | '-' :: rest => (pyIntDigits rest).map (fun n => -(Int.ofNat n))
  | rest => (pyIntDigits rest).map Int.ofNat

/-- Values a resolved configuration option can take in worddiff.py:
Python None, a bool, an int, or a string. -/
inductive ConfigVal
  | none : ConfigVal
  | bool : Bool → ConfigVal
  | int : Int → ConfigVal
  | str : String → ConfigVal
deriving DecidableEq

/-- Python get_config_value (lines 27-43).  config is the DEFAULT section
of config.ini as a partial map; a missing config.ini is the everywhere-none
map.  The Except error models the uncaught ValueError that
config.getboolean raises on a malformed boolean; the malformed fixed_width
is caught by the source and falls back to the supplied default. -/
def get_config_value (key : String) (command_line_arg : Option ConfigVal)
    (default : ConfigVal) (config : String → Option String) :
    Except String ConfigVal :=
  match command_line_arg with
  | some v => .ok v
  | Option.none =>
    match config key with
    | some raw =>
      if key = "color" || key = "underline" then
        match getboolean raw with
        | some b => .ok (.bool b)
        | Option.none => .error "ValueError: Not a boolean"
      else if key = "fixed_width" then
        if pyLower raw = "none" then .ok .none
        else
          match pyIntOpt raw with
          | some n => .ok (.int n)
          | Option.none => .ok default
      else .ok (.str raw)
    | Option.none => .ok default

/-- Lines 135-136 of main: header_titles is resolved and then immediately
re-resolved and passed to parse.  When neither the command line nor the
configuration supplies header_titles, the resolved value is Python None and
parse(None) evaluates None.split(','), an AttributeError; the error case
models that crash. -/
def resolve_header_titles (command_line_arg : Option String)
    (config : String → Option String) : Except String (List String) :=
  match get_config_value "header_titles" (command_line_arg.map ConfigVal.str)
      ConfigVal.none config with
  | .ok (.str s) => .ok (parse s)
  | .ok ConfigVal.none =>
      .error "AttributeError: NoneType object has no attribute split"
  | .ok v => .ok (match v with | _ => [])
  | .error e => .error e

/-! ## textwrap model (used by main lines 165-166)

The source calls textwrap.fill(text, width), i.e. TextWrapper with the
default options: expand_tabs, replace_whitespace, drop_whitespace,
break_long_words and break_on_hyphens all true, no indents, no max_lines.
The chunk splitter below splits munged text into maximal runs of
whitespace and non-whitespace; the em-dash and intra-word hyphen
subdivision of the stdlib word-separation regex is not modelled (the
wrapped-line length bound proved later holds for arbitrary chunk lists,
so it is independent of this restriction, and the concrete inputs
evaluated below contain no hyphens). -/

/-- Python str.expandtabs(8): replace each tab with spaces up to the next
multiple of 8; newline and carriage return reset the column. -/
def expandTabsGo : List Char → Nat → List Char
  | [], _ => []
  | c :: cs, col =>
    if c = '\t' then
      List.replicate (8 - col % 8) ' ' ++ expandTabsGo cs (col + (8 - col % 8))
    else if c = '\n' || c = '\r' then c :: expandTabsGo cs 0
    else c :: expandTabsGo cs (col + 1)

/-- textwrap replace_whitespace: map each whitespace char to a space. -/
def replaceWs (l : List Char) : List Char :=
  l.map (fun c => if isPySpace c then ' ' else c)

/-- textwrap._munge_whitespace with the default options. -/
def mungeWhitespace (l : List Char) : List Char := replaceWs (expandTabsGo l 0)

/-- Maximal runs continuing a run of kind k (k true = whitespace run). -/
def splitRunsAux : List Char → Bool → List Char → List (List Char)
  | [], _, cur => [cur.reverse]
  | c :: cs, k, cur =>
    if isPySpace c = k then splitRunsAux cs k (c :: cur)
    else cur.reverse :: splitRunsAux cs (isPySpace c) [c]

/-- Chunk list of textwrap._split restricted to hyphen-free text: maximal
runs of whitespace and of non-whitespace, all nonempty. -/
def splitRuns : List Char → List (List Char)
  | [] => []
  | c :: cs => splitRunsAux cs (isPySpace c) [c]

/-- Sum of chunk lengths. -/
def chunkSum (l : List (List Char)) : Nat := (l.map List.length).sum

/-- Python chunk.strip() == '' test: every char is whitespace. -/
def isBlankChunk (c : List Char) : Bool := c.all isPySpace

/-- Python chunk.rfind(45, 0, bound): greatest index below bound (and in
range) holding a hyphen; none models the -1 result. -/
def rfindHyphen (l : List Char) (bound : Nat) : Option Nat :=
  ((List.range (min bound l.length)).filter (fun i => l.getD i ' ' = '-')).getLast?

/-- Inner while loop of textwrap._wrap_chunks: greedily move chunks onto
the current line while they fit; returns remaining chunks, cur_len and
cur_line. -/
def wrapInner (w : Nat) : List (List Char) → Nat → List (List Char) →
    List (List Char) × Nat × List (List Char)
  | [], curLen, curLine => ([], curLen, curLine)
  | c :: cs, curLen, curLine =>
    if curLen + c.length ≤ w then wrapInner w cs (curLen + c.length) (curLine ++ [c])
    else (c :: cs, curLen, curLine)

/-- textwrap._handle_long_word with break_long_words and break_on_hyphens
true: move a prefix of the over-long chunk onto the current line,
preferring to cut just after the last hyphen that fits when one exists
with a non-hyphen before it. -/
def handleLongWord (w : Nat) (chunks : List (List Char))
    (curLine : List (List Char)) (curLen : Nat) :
    List (List Char) × List (List Char) :=
  match chunks with
  | [] => ([], curLine)
  | c :: cs =>
    let spaceLeft := if w < 1 then 1 else w - curLen
    let e :=
      if spaceLeft < c.length then
        match rfindHyphen c spaceLeft with
        | some hy =>
          if 0 < hy ∧ (c.take hy).any (fun x => decide (x ≠ '-')) then hy + 1
          else spaceLeft
        | Option.none => spaceLeft
      else spaceLeft
    (c.drop e :: cs, curLine ++ [c.take e])

/-- After the greedy inner loop: if the head remaining chunk is longer
than the width, break it with _handle_long_word; returns the remaining
chunks and cur_line. -/
def wrapBreak (w : Nat) (st : List (List Char) × Nat × List (List Char)) :
    List (List Char) × List (List Char) :=
  match st.1 with
  | c :: _ => if w < c.length then handleLongWord w st.1 st.2.2 st.2.1
              else (st.1, st.2.2)
  | [] => (st.1, st.2.2)

/-- Drop of the single trailing whitespace piece of cur_line
(drop_whitespace branch at the end of the loop body). -/
def wrapTrim (line : List (List Char)) : List (List Char) :=
  match line.getLast? with
  | some lc => if isBlankChunk lc then line.dropLast else line
  | Option.none => line

/-- One iteration of the outer while loop of textwrap._wrap_chunks (no
indents, drop_whitespace on, no max_lines): drop a leading blank chunk
after the first line, greedily assemble the current line, break an
over-long head chunk, drop a trailing blank piece, and append the joined
line when nonempty.  Returns the remaining chunks and the grown line
list. -/
def wrapStep (w : Nat) (c0 : List Char) (cs0 : List (List Char))
    (lines : List (List Char)) : List (List Char) × List (List Char) :=
  let chunks1 := if isBlankChunk c0 && !lines.isEmpty then cs0 else c0 :: cs0
  let st2 := wrapBreak w (wrapInner w chunks1 0 [])
  (st2.1,
    if (wrapTrim st2.2).isEmpty then lines
    else lines ++ [(wrapTrim st2.2).flatten])

/-- Outer while loop of textwrap._wrap_chunks.  Python's loop terminates
because every iteration either consumes chunk characters or precedes one
that does; the fuel below bounds the iteration count generously, and
every property proved about this function holds for every fuel value. -/
def wrapChunksGo (w : Nat) : Nat → List (List Char) → List (List Char) →
    List (List Char)
  | 0, _, lines => lines
  | Nat.succ _, [], lines => lines
  | Nat.succ fuel, c0 :: cs0, lines =>
    wrapChunksGo w fuel (wrapStep w c0 cs0 lines).1 (wrapStep w c0 cs0 lines).2

/-- textwrap._wrap_chunks.  Python raises ValueError for width <= 0
(aborting the run before any output); that case is modelled as the empty
line list. -/
def wrapChunks (w : Nat) (chunks : List (List Char)) : List (List Char) :=
  if w = 0 then []
  else wrapChunksGo w (2 * (chunkSum chunks + chunks.length) + 2) chunks []

/-- textwrap.fill(text, w): munge, split into chunks, wrap, and join the
wrapped lines with newlines. -/
def fill (text : String) (w : Nat) : String :=
  String.mk (List.intercalate ['\n'] (wrapChunks w (splitRuns (mungeWhitespace text.data))))

/-! ## difflib.SequenceMatcher model

The program constructs difflib.SequenceMatcher(None, a, b) (isjunk=None,
autojunk=True) over lists of strings, at line and at word granularity, and
consumes only get_opcodes(). -/

/-- Ascending list of indices of occurrences of x in b: the b2j entry
built by chain_b before the popularity filter. -/
def occurrenceIdx (b : List String) (x : String) : List Nat :=
  (List.range b.length).filter (fun j => b.getD j "" = x)

/-- Autojunk rule of chain_b: in a sequence of at least 200 elements, an
element with more than n/100 + 1 occurrences is popular and is dropped
from b2j. -/
def isPopular (b : List String) (x : String) : Bool :=
  decide (200 ≤ b.length) && decide (b.length / 100 + 1 < (occurrenceIdx b x).length)

/-- b2j lookup after the autojunk filter; a missing key reads as []. -/
def b2j (b : List String) (x : String) : List Nat :=
  if isPopular b x then [] else occurrenceIdx b x

/-- bjunk membership: empty because the program passes isjunk=None. -/
def isbjunk (_ : String) : Bool := false

/-- Running best match of find_longest_match. -/
structure BestMatch where
  besti : Nat
  bestj : Nat
  bestsize : Nat
deriving DecidableEq

/-- j2len.get(j-1, 0): Python index -1 is never a key of the dict, so
j = 0 reads the default 0. -/
def getPrev (f : Nat → Nat) (j : Nat) : Nat :=
  if j = 0 then 0 else f (j - 1)

/-- Inner loop of find_longest_match over b2j[a[i]]: builds newj2len from
the previous row's dict and updates the running best, honoring the
continue (j < blo) and break (j >= bhi) of the source.  The lemmas below
establish k <= i+1 and k <= j+1, so the Nat subtractions i+1-k and j+1-k
agree with Python's i-k+1 and j-k+1. -/
def flmInner (i blo bhi : Nat) (old : Nat → Nat) :
    List Nat → (Nat → Nat) → BestMatch → (Nat → Nat) × BestMatch
  | [], new, best => (new, best)
  | j :: js, new, best =>
    if j < blo then flmInner i blo bhi old js new best
    else if bhi ≤ j then (new, best)
    else
      let k := getPrev old j + 1
      let new2 := Function.update new j k
      let best2 : BestMatch :=
        if best.bestsize < k then ⟨i + 1 - k, j + 1 - k, k⟩ else best
      flmInner i blo bhi old js new2 best2

/-- Row loop (for i in range(alo, ahi)) of find_longest_match; each row
reads the previous row's dict and starts a fresh one. -/
def flmRows (a b : List String) (blo bhi : Nat) (rows : List Nat)
    (st : (Nat → Nat) × BestMatch) : (Nat → Nat) × BestMatch :=
  rows.foldl
    (fun st i => flmInner i blo bhi st.1 (b2j b (a.getD i "")) (fun _ => 0) st.2)
    st

/-- First extension loop of find_longest_match: grow backwards over equal
elements whose b-side is not junk. -/
def extLowerNon (a b : List String) (alo blo besti bestj bestsize : Nat) :
    BestMatch :=
  if h : alo < besti ∧ blo < bestj ∧ isbjunk (b.getD (bestj - 1) "") = false ∧
      a.getD (besti - 1) "" = b.getD (bestj - 1) "" then
    extLowerNon a b alo blo (besti - 1) (bestj - 1) (bestsize + 1)
  else ⟨besti, bestj, bestsize⟩
termination_by besti
decreasing_by have := h.1; omega

/-- Second extension loop: grow forwards over equal non-junk elements. -/
def extUpperNon (a b : List String) (ahi bhi besti bestj bestsize : Nat) :
    BestMatch :=
  if h : besti + bestsize < ahi ∧ bestj + bestsize < bhi ∧
      isbjunk (b.getD (bestj + bestsize) "") = false ∧
      a.getD (besti + bestsize) "" = b.getD (bestj + bestsize) "" then
    extUpperNon a b ahi bhi besti bestj (bestsize + 1)
  else ⟨besti, bestj, bestsize⟩
termination_by ahi - (besti + bestsize)
decreasing_by have := h.1; omega

/-- Third extension loop: grow backwards over equal junk elements (never
fires since bjunk is empty, kept for fidelity). -/
def extLowerJunk (a b : List String) (alo blo besti bestj bestsize : Nat) :
    BestMatch :=
  if h : alo < besti ∧ blo < bestj ∧ isbjunk (b.getD (bestj - 1) "") = true ∧
      a.getD (besti - 1) "" = b.getD (bestj - 1) "" then
    extLowerJunk a b alo blo (besti - 1) (bestj - 1) (bestsize + 1)
  else ⟨besti, bestj, bestsize⟩
termination_by besti
decreasing_by have := h.1; omega

/-- Fourth extension loop: grow forwards over equal junk elements (never
fires since bjunk is empty, kept for fidelity). -/
def extUpperJunk (a b : List String) (ahi bhi besti bestj bestsize : Nat) :
    BestMatch :=
  if h : besti + bestsize < ahi ∧ bestj + bestsize < bhi ∧
      isbjunk (b.getD (bestj + bestsize) "") = true ∧
      a.getD (besti + bestsize) "" = b.getD (bestj + bestsize) "" then
    extUpperJunk a b ahi bhi besti bestj (bestsize + 1)
  else ⟨besti, bestj, bestsize⟩
termination_by ahi - (besti + bestsize)
decreasing_by have := h.1; omega

/-- difflib.SequenceMatcher.find_longest_match(alo, ahi, blo, bhi). -/
def find_longest_match (a b : List String) (alo ahi blo bhi : Nat) : BestMatch :=
  let st := flmRows a b blo bhi (List.range' alo (ahi - alo)) (fun _ => 0, ⟨alo, blo, 0⟩)
  let m1 := st.2
  let m2 := extLowerNon a b alo blo m1.besti m1.bestj m1.bestsize
  let m3 := extUpperNon a b ahi bhi m2.besti m2.bestj m2.bestsize
  let m4 := extLowerJunk a b alo blo m3.besti m3.bestj m3.bestsize
  extUpperJunk a b ahi bhi m4.besti m4.bestj m4.bestsize

/-- Lexicographic order on block triples, as Python list.sort() compares
tuples. -/
def blockLe (x y : Nat × Nat × Nat) : Bool :=
  decide (x.1 < y.1) ||
    (decide (x.1 = y.1) &&
      (decide (x.2.1 < y.2.1) ||
        (decide (x.2.1 = y.2.1) && decide (x.2.2 ≤ y.2.2))))

/-- Queue loop of get_matching_blocks.  Python pops from the end of the
list and pushes the left half before the right half, so the right half is
processed first; the model keeps the stack top at the head.  The fuel
bounds the pop count (each productive pop strictly shrinks the summed
rectangle sizes); every property proved below holds for every fuel
value. -/
def gmbGo (a b : List String) : Nat → List (Nat × Nat × Nat × Nat) →
    List (Nat × Nat × Nat) → List (Nat × Nat × Nat)
  | 0, _, acc => acc
  | Nat.succ _, [], acc => acc
  | Nat.succ fuel, (alo, ahi, blo, bhi) :: queue, acc =>
    let m := find_longest_match a b alo ahi blo bhi
    if m.bestsize = 0 then gmbGo a b fuel queue acc
    else
      let q1 := if alo < m.besti && blo < m.bestj then
          (alo, m.besti, blo, m.bestj) :: queue else queue
      let q2 := if m.besti + m.bestsize < ahi && m.bestj + m.bestsize < bhi then
          (m.besti + m.bestsize, ahi, m.bestj + m.bestsize, bhi) :: q1 else q1
      gmbGo a b fuel q2 (acc ++ [(m.besti, m.bestj, m.bestsize)])

/-- Adjacent-block collapsing loop of get_matching_blocks. -/
def collapseGo : (Nat × Nat × Nat) → List (Nat × Nat × Nat) →
    List (Nat × Nat × Nat) → List (Nat × Nat × Nat)
  | cur, [], out => if cur.2.2 ≠ 0 then out ++ [cur] else out
  | (i1, j1, k1), (i2, j2, k2) :: rest, out =>
    if i1 + k1 = i2 ∧ j1 + k1 = j2 then collapseGo (i1, j1, k1 + k2) rest out
    else if k1 ≠ 0 then collapseGo (i2, j2, k2) rest (out ++ [(i1, j1, k1)])
    else collapseGo (i2, j2, k2) rest out

/-- difflib get_matching_blocks: queue recursion, stable sort, adjacent
collapse, and the terminal sentinel (len(a), len(b), 0). -/
def get_matching_blocks (a b : List String) : List (Nat × Nat × Nat) :=
  let blocks := gmbGo a b (a.length + b.length + 1) [(0, a.length, 0, b.length)] []
  collapseGo (0, 0, 0) (blocks.mergeSort blockLe) [] ++ [(a.length, b.length, 0)]

/-- One alignment opcode (tag, i1, i2, j1, j2). -/
structure Opcode where
  tag : String
  i1 : Nat
  i2 : Nat
  j1 : Nat
  j2 : Nat
deriving DecidableEq

/-- One iteration of the get_opcodes loop over matching blocks: tag the
gap before the block, then emit an equal op for the block itself. -/
def opcodeStep (st : Nat × Nat × List Opcode) (blk : Nat × Nat × Nat) :
    Nat × Nat × List Opcode :=
  let i := st.1
  let j := st.2.1
  let acc := st.2.2
  let ai := blk.1
  let bj := blk.2.1
  let size := blk.2.2
  let tag : String :=
    if i < ai ∧ j < bj then "replace"
    else if i < ai then "delete"
    else if j < bj then "insert"
    else ""
  let acc2 := if tag ≠ "" then acc ++ [⟨tag, i, ai, j, bj⟩] else acc
  let acc3 := if size ≠ 0 then
      acc2 ++ [⟨"equal", ai, ai + size, bj, bj + size⟩] else acc2
  (ai + size, bj + size, acc3)

/-- difflib get_opcodes. -/
def get_opcodes (a b : List String) : List Opcode :=
  ((get_matching_blocks a b).foldl opcodeStep (0, 0, [])).2.2

/-- Python list slice a[i:j] for nonnegative bounds, clamping as Python
does. -/
def pySlice (l : List String) (i j : Nat) : List String := (l.drop i).take (j - i)

/-! ## word_diff and the rendering pipeline (worddiff.py lines 86-110 and
main lines 145-173) -/

/-- Python ' '.join for a list of strings. -/
def pyJoinSp (ws : List String) : String := String.mk (joinSp (ws.map String.data))

/-- Colors dict built in main (line 145). -/
structure Colors where
  replace_color_left : String
  replace_color_right : String
  insert_color : String
  delete_color : String

/-- apply_styles inside word_diff (lines 91-96). -/
def apply_styles (color underline : Bool) (word word_color : String) : String :=
  let w1 := if color then colored word word_color else word
  if underline then "\x1b[4m" ++ w1 ++ "\x1b[0m" else w1

/-- word_diff (lines 86-110): split both lines into words, align with
SequenceMatcher, copy equal words verbatim, style replaced, deleted and
inserted words, and join each side with single spaces. -/
def word_diff (orig_line modified_line : String) (colors : Colors)
    (color underline : Bool) : String × String :=
  let orig_words := pySplit orig_line
  let mod_words := pySplit modified_line
  let res := (get_opcodes orig_words mod_words).foldl
    (fun (st : List String × List String) op =>
      if op.tag = "equal" then
        (st.1 ++ pySlice orig_words op.i1 op.i2,
         st.2 ++ pySlice mod_words op.j1 op.j2)
      else if op.tag = "replace" then
        (st.1 ++ (pySlice orig_words op.i1 op.i2).map
            (fun w => apply_styles color underline w colors.replace_color_left),
         st.2 ++ (pySlice mod_words op.j1 op.j2).map
            (fun w => apply_styles color underline w colors.replace_color_right))
      else if op.tag = "delete" then
        (st.1 ++ (pySlice orig_words op.i1 op.i2).map
            (fun w => apply_styles color underline w colors.delete_color),
         st.2)
      else if op.tag = "insert" then
        (st.1,
         st.2 ++ (pySlice mod_words op.j1 op.j2).map
            (fun w => apply_styles color underline w colors.insert_color))
      else st)
    ([], [])
  (pyJoinSp res.1, pyJoinSp res.2)

/-- Rows appended for one surviving line pair (main lines 164-173): word
diff, wrap both sides, split the wrapped text back into lines, pad the
shorter line list with empty strings, and join visibly padded halves with
the column separator. -/
def rows_for_pair (colors : Colors) (color underline : Bool)
    (fixed_width : Nat) (orig modified : String) : List String :=
  let d := word_diff orig modified colors color underline
  let orig_diff_lines := pySplitSep (fill d.1 fixed_width) '\n'
  let mod_diff_lines := pySplitSep (fill d.2 fixed_width) '\n'
  let max_lines := max orig_diff_lines.length mod_diff_lines.length
  let o2 := orig_diff_lines ++ List.replicate (max_lines - orig_diff_lines.length) ""
  let m2 := mod_diff_lines ++ List.replicate (max_lines - mod_diff_lines.length) ""
  (o2.zip m2).map
    (fun p => pad_text p.1 fixed_width ++ " | " ++ pad_text p.2 fixed_width)

/-- itertools.zip_longest for two lists with a fill value. -/
def zipLongest (fv : String) : List String → List String → List (String × String)
  | [], [] => []
  | x :: xs, [] => (x, fv) :: zipLongest fv xs []
  | [], y :: ys => (fv, y) :: zipLongest fv [] ys
  | x :: xs, y :: ys => (x, y) :: zipLongest fv xs ys

/-- Line pairs formed and forwarded for one non-equal opcode (main lines
161-163): positional pairing via zip_longest with empty-string fill,
skipping pairs blank on both sides. -/
def op_pairs (orig_lines modified_lines : List String) (op : Opcode) :
    List (String × String) :=
  (zipLongest "" (pySlice orig_lines op.i1 op.i2)
      (pySlice modified_lines op.j1 op.j2)).filter
    (fun p => !(pyStrip p.1 = "" && pyStrip p.2 = ""))

/-- All diff rows appended by the main loop (lines 156-173): everything
the program outputs after the optional header row. -/
def diff_rows (colors : Colors) (color underline : Bool) (fixed_width : Nat)
    (orig_lines modified_lines : List String) : List String :=
  (get_opcodes orig_lines modified_lines).foldl
    (fun acc op =>
      if op.tag = "equal" then acc
      else (op_pairs orig_lines modified_lines op).foldl
        (fun acc2 p => acc2 ++ rows_for_pair colors color underline fixed_width p.1 p.2)
        acc)
    []

/-! ## Lemmas about pySplit and joinSp (toward claim C9) -/

theorem pySplitAux_cons_nonspace {c : Char} (hc : isPySpace c = false)
    (l cur : List Char) : pySplitAux (c :: l) cur = pySplitAux l (c :: cur) := by
  simp [pySplitAux, hc]

theorem pySplitAux_append_word {w : List Char}
    (hw : ∀ c ∈ w, isPySpace c = false) (l cur : List Char) :
    pySplitAux (w ++ l) cur = pySplitAux l (w.reverse ++ cur) := by
  induction w generalizing cur with
  | nil => simp
  | cons c w ih =>
    have hc : isPySpace c = false := hw c (by simp)
    rw [List.cons_append, pySplitAux_cons_nonspace hc,
      ih (fun x hx => hw x (by simp [hx]))]
    simp

theorem pySplitAux_space (l cur : List Char) :
    pySplitAux (' ' :: l) cur =
      if cur.isEmpty then pySplitAux l [] else cur.reverse :: pySplitAux l [] := by
  simp [pySplitAux, isPySpace]

theorem pySplitAux_good (l : List Char) :
    ∀ cur, (∀ c ∈ cur, isPySpace c = false) →
    ∀ w ∈ pySplitAux l cur, w ≠ [] ∧ ∀ c ∈ w, isPySpace c = false := by
  induction l with
  | nil =>
    intro cur hcur w hw
    by_cases h : cur.isEmpty
    · simp [pySplitAux, h] at hw
    · simp [pySplitAux, h] at hw
      subst hw
      refine ⟨?_, fun c hc => hcur c (by simpa using hc)⟩
      simpa [List.isEmpty_iff] using h
  | cons c cs ih =>
    intro cur hcur w hw
    by_cases hc : isPySpace c = true
    · rw [show (c :: cs) = c :: cs from rfl] at hw
      simp only [pySplitAux, hc, if_true] at hw
      by_cases he : cur.isEmpty
      · rw [if_pos he] at hw
        exact ih [] (by simp) w hw
      · rw [if_neg he] at hw
        rcases List.mem_cons.mp hw with h1 | h2
        · subst h1
          refine ⟨?_, fun x hx => hcur x (by simpa using hx)⟩
          simpa [List.isEmpty_iff] using he
        · exact ih [] (by simp) w h2
    · simp only [pySplitAux, hc, if_false] at hw
      refine ih (c :: cur) ?_ w hw
      intro x hx
      rcases List.mem_cons.mp hx with h1 | h2
      · subst h1; simpa using hc
      · exact hcur x h2

theorem joinSp_cons_cons (w w2 : List Char) (ws : List (List Char)) :
    joinSp (w :: w2 :: ws) = w ++ ' ' :: joinSp (w2 :: ws) := rfl

theorem pySplit_joinSp :
    ∀ ws : List (List Char),
    (∀ w ∈ ws, w ≠ [] ∧ ∀ c ∈ w, isPySpace c = false) →
    pySplitChars (joinSp ws) = ws := by
  intro ws
  induction ws with
  | nil => intro _; simp [joinSp, pySplitChars, pySplitAux]
  | cons w ws ih =>
    intro h
    obtain ⟨hne, hsp⟩ := h w (by simp)
    cases ws with
    | nil =>
      show pySplitAux (joinSp [w]) [] = [w]
      rw [show joinSp [w] = w ++ [] by simp [joinSp]]
      rw [pySplitAux_append_word hsp]
      have : ¬ (w.reverse ++ []).isEmpty = true := by
        simp [List.isEmpty_iff]; exact hne
      simp only [pySplitAux, this, if_false]
      simp
    | cons w2 ws2 =>
      show pySplitAux (joinSp (w :: w2 :: ws2)) [] = w :: w2 :: ws2
      rw [joinSp_cons_cons, pySplitAux_append_word hsp, List.append_nil,
        pySplitAux_space]
      have : ¬ w.reverse.isEmpty = true := by
        simp [List.isEmpty_iff]; exact hne
      rw [if_neg this, List.reverse_reverse]
      exact congrArg (w :: ·) (ih (fun x hx => h x (by simp [hx])))

/-- Claim C9: line preprocessing is idempotent. -/
theorem claim_c9 (s : String) :
    preprocess_line (preprocess_line s) = preprocess_line s := by
  show preprocess_line (String.mk (joinSp (pySplitChars s.data))) = _
  unfold preprocess_line
  show String.mk (joinSp (pySplitChars (joinSp (pySplitChars s.data)))) = _
  rw [pySplit_joinSp (pySplitChars s.data)
    (fun w hw => pySplitAux_good s.data [] (by simp) w hw)]

/-! ## Lemmas about ANSI stripping (toward claims C10 and C3) -/

theorem stripAnsi_of_match {l rest : List Char} (h : matchEsc l = some rest) :
    stripAnsiChars l = stripAnsiChars rest := by
  rw [stripAnsiChars]
  split
  · next r heq => rw [h] at heq; cases heq; rfl
  · next heq => rw [h] at heq; cases heq

theorem stripAnsi_nil : stripAnsiChars [] = [] := by
  rw [stripAnsiChars]
  split
  · next r heq => simp [matchEsc] at heq
  · rfl

theorem stripAnsi_of_nomatch_cons {c : Char} {cs : List Char}
    (h : matchEsc (c :: cs) = none) :
    stripAnsiChars (c :: cs) = c :: stripAnsiChars cs := by
  rw [stripAnsiChars]
  split
  · next r heq => rw [h] at heq; cases heq
  · rfl

theorem matchEsc_ne_esc {c : Char} (hc : ¬ c = '\x1b') (cs : List Char) :
    matchEsc (c :: cs) = none := by
  cases cs with
  | nil => rfl
  | cons c1 r => simp [matchEsc, hc]

theorem stripAnsi_of_no_esc {l : List Char} (h : ∀ c ∈ l, ¬ c = '\x1b') :
    stripAnsiChars l = l := by
  induction l with
  | nil => exact stripAnsi_nil
  | cons c cs ih =>
    rw [stripAnsi_of_nomatch_cons (matchEsc_ne_esc (h c (by simp)) cs)]
    rw [ih (fun x hx => h x (by simp [hx]))]

theorem dropWhile_replicate_pos {p : Char → Bool} (h : p ' ' = true) (k : Nat) :
    (List.replicate k ' ').dropWhile p = [] := by
  induction k with
  | zero => simp
  | succ n ih => simp [List.replicate_succ, List.dropWhile_cons, h, ih]

theorem dropWhile_replicate_neg {p : Char → Bool} (h : p ' ' = false) (k : Nat) :
    (List.replicate k ' ').dropWhile p = List.replicate k ' ' := by
  cases k with
  | zero => simp
  | succ n => simp [List.replicate_succ, List.dropWhile_cons, h]

theorem matchEsc_append_spaces (xs : List Char) (k : Nat) :
    matchEsc (xs ++ List.replicate k ' ') =
      (matchEsc xs).map (· ++ List.replicate k ' ') := by
  match xs with
  | [] =>
    simp only [List.nil_append, matchEsc, Option.map_none']
    cases k with
    | zero => rfl
    | succ n =>
      cases n with
      | zero => rfl
      | succ m =>
        simp [List.replicate_succ, matchEsc, isEscIntro]
  | [c] =>
    cases k with
    | zero => simp [matchEsc]
    | succ n =>
      simp only [List.cons_append, List.nil_append, List.replicate_succ]
      have : isEscIntro ' ' = false := by decide
      simp [matchEsc, this]
  | c0 :: c1 :: r =>
    simp only [List.cons_append]
    cases hc : (decide (c0 = '\x1b') && isEscIntro c1) with
    | false => simp [matchEsc, hc]
    | true =>
      simp only [matchEsc, hc, if_true]
      rw [List.dropWhile_append]
      cases hd1 : r.dropWhile isCsiParam with
      | nil =>
        simp only [hd1, List.isEmpty_nil, if_true]
        rw [dropWhile_replicate_neg (by decide)]
        rw [dropWhile_replicate_pos (by decide)]
        simp
      | cons d1h d1t =>
        simp only [hd1, List.isEmpty_cons, if_false, Bool.false_eq_true]
        rw [List.dropWhile_append]
        cases hd2 : (d1h :: d1t).dropWhile isCsiInter with
        | nil =>
          simp only [List.isEmpty_nil, if_true]
          rw [dropWhile_replicate_pos (by decide)]
          simp
        | cons f r3 =>
          simp only [List.isEmpty_cons, if_false, Bool.false_eq_true]
          cases hf : isCsiFinal f with
          | false => simp [hf]
          | true => simp [hf]

theorem stripAnsi_replicate (k : Nat) :
    stripAnsiChars (List.replicate k ' ') = List.replicate k ' ' := by
  refine stripAnsi_of_no_esc ?_
  intro c hc
  rw [List.eq_of_mem_replicate hc]
  decide

theorem stripAnsiChars_append_spaces (k : Nat) (xs : List Char) :
    stripAnsiChars (xs ++ List.replicate k ' ') =
      stripAnsiChars xs ++ List.replicate k ' ' := by
  have main : ∀ n (xs : List Char), xs.length ≤ n →
      stripAnsiChars (xs ++ List.replicate k ' ') =
        stripAnsiChars xs ++ List.replicate k ' ' := by
    intro n
    induction n with
    | zero =>
      intro xs hlen
      have : xs = [] := List.eq_nil_of_length_eq_zero (Nat.le_zero.mp hlen)
      subst this
      simp [stripAnsi_nil, stripAnsi_replicate]
    | succ n ih =>
      intro xs hlen
      cases hm : matchEsc xs with
      | some rest =>
        have hm2 : matchEsc (xs ++ List.replicate k ' ') =
            some (rest ++ List.replicate k ' ') := by
          rw [matchEsc_append_spaces, hm]; rfl
        rw [stripAnsi_of_match hm2, stripAnsi_of_match hm]
        exact ih rest (by have := matchEsc_length_lt hm; omega)
      | none =>
        cases xs with
        | nil => simp [stripAnsi_nil, stripAnsi_replicate]
        | cons c cs =>
          have hm2 : matchEsc ((c :: cs) ++ List.replicate k ' ') = none := by
            rw [matchEsc_append_spaces, hm]; rfl
          rw [List.cons_append] at hm2
          rw [List.cons_append, stripAnsi_of_nomatch_cons hm2,
            stripAnsi_of_nomatch_cons hm]
          rw [ih cs (by simpa using Nat.lt_succ_iff.mp (Nat.lt_of_lt_of_le (by simp) hlen))]
          rfl
  exact main xs.length xs le_rfl

theorem stripAnsi_length_le (l : List Char) :
    (stripAnsiChars l).length ≤ l.length := by
  have main : ∀ n (l : List Char), l.length ≤ n →
      (stripAnsiChars l).length ≤ l.length := by
    intro n
    induction n with
    | zero =>
      intro l hlen
      have : l = [] := List.eq_nil_of_length_eq_zero (Nat.le_zero.mp hlen)
      subst this; simp [stripAnsi_nil]
    | succ n ih =>
      intro l hlen
      cases hm : matchEsc l with
      | some rest =>
        rw [stripAnsi_of_match hm]
        have hlt := matchEsc_length_lt hm
        have := ih rest (by omega)
        omega
      | none =>
        cases l with
        | nil => simp [stripAnsi_nil]
        | cons c cs =>
          rw [stripAnsi_of_nomatch_cons hm]
          have := ih cs (by simpa using Nat.lt_succ_iff.mp (Nat.lt_of_lt_of_le (by simp) hlen))
          simpa using this
  exact main l.length l le_rfl

theorem data_append (s t : String) : (s ++ t).data = s.data ++ t.data := rfl

theorem visibleLen_append_spaces (t : String) (k : Nat) :
    visibleLen (t ++ String.mk (List.replicate k ' ')) = visibleLen t + k := by
  unfold visibleLen strip_ansi_codes
  show (String.mk (stripAnsiChars (t.data ++ List.replicate k ' '))).length = _
  rw [stripAnsiChars_append_spaces]
  show (stripAnsiChars t.data ++ List.replicate k ' ').length = _
  simp [String.length]

/-- Claim C10: pad_text never truncates; its output has the input as a
prefix, visible length max(w, visible), and is unchanged when the input is
already visibly wider than w. -/
theorem claim_c10 (t : String) (w : Nat) :
    (∃ r, pad_text t w = t ++ r) ∧
    visibleLen (pad_text t w) = max w (visibleLen t) ∧
    (w < visibleLen t → pad_text t w = t) := by
  have pe : pad_text t w = if visibleLen t < w then
      t ++ String.mk (List.replicate (w - visibleLen t) ' ') else t := rfl
  by_cases h : visibleLen t < w
  · rw [pe, if_pos h]
    refine ⟨⟨_, rfl⟩, ?_, ?_⟩
    · rw [visibleLen_append_spaces, Nat.max_eq_left (Nat.le_of_lt h)]
      omega
    · intro hlt; omega
  · rw [pe, if_neg h]
    refine ⟨⟨"", (String.append_empty t).symm⟩, ?_, fun _ => rfl⟩
    rw [Nat.max_eq_right (Nat.le_of_not_lt h)]

/-- Witness for claim C10, discharging the over-wide case at t = "abc",
w = 2. -/
theorem claim_c10_witness : pad_text "abc" 2 = "abc" := by
  refine (claim_c10 "abc" 2).2.2 ?_
  show 2 < visibleLen "abc"
  unfold visibleLen strip_ansi_codes
  rw [show ("abc" : String).data = ['a', 'b', 'c'] from rfl]
  rw [stripAnsi_of_no_esc (by decide)]
  decide

/-! ## Claim C1: runs without header titles -/

/-- Claim C1 is a code bug: when no header titles are supplied anywhere,
line 136 of main evaluates parse(None), i.e. None.split(','), and the run
aborts with AttributeError instead of completing without a header row. -/
theorem claim_c1_crash (config : String → Option String)
    (h : config "header_titles" = Option.none) :
    resolve_header_titles Option.none config =
      .error "AttributeError: NoneType object has no attribute split" := by
  unfold resolve_header_titles get_config_value
  simp [h]

/-- Witness: the crash at the concrete run with no config file at all. -/
theorem claim_c1_crash_witness :
    resolve_header_titles Option.none (fun _ => Option.none) =
      .error "AttributeError: NoneType object has no attribute split" :=
  claim_c1_crash (fun _ => Option.none) rfl

/-! ## Claim C4: malformed configuration values -/

/-- Counterexample to claim C4 as stated: a malformed boolean for color
does not fall back to the default; config.getboolean raises ValueError and
the run aborts. -/
theorem claim_c4_counterexample :
    get_config_value "color" Option.none (ConfigVal.bool true)
      (fun k => if k = "color" then some "maybe" else Option.none) =
    .error "ValueError: Not a boolean" := by
  unfold get_config_value
  simp
  rfl

/-- Claim C4 amended: a fixed_width value that is neither the string none
nor a valid integer falls back to the supplied default without aborting,
but a malformed boolean for color or underline raises ValueError and
aborts the run. -/
theorem claim_c4_amended (cfg : String → Option String) (raw : String)
    (d : ConfigVal) :
    (cfg "fixed_width" = some raw → pyLower raw ≠ "none" →
      pyIntOpt raw = Option.none →
      get_config_value "fixed_width" Option.none d cfg = .ok d) ∧
    (cfg "color" = some raw → getboolean raw = Option.none →
      get_config_value "color" Option.none d cfg =
        .error "ValueError: Not a boolean") ∧
    (cfg "underline" = some raw → getboolean raw = Option.none →
      get_config_value "underline" Option.none d cfg =
        .error "ValueError: Not a boolean") := by
  refine ⟨?_, ?_, ?_⟩
  · intro hc hlower hint
    unfold get_config_value
    simp [hc, hlower, hint]
  · intro hc hbool
    unfold get_config_value
    simp [hc, hbool]
  · intro hc hbool
    unfold get_config_value
    simp [hc, hbool]

/-- Witness for the amended claim C4: a malformed width falls back to the
default and a malformed boolean aborts, at concrete configurations. -/
theorem claim_c4_amended_witness :
    get_config_value "fixed_width" Option.none (ConfigVal.int 37)
      (fun k => if k = "fixed_width" then some "wide" else Option.none) =
      .ok (ConfigVal.int 37) ∧
    get_config_value "underline" Option.none (ConfigVal.bool false)
      (fun k => if k = "underline" then some "maybe" else Option.none) =
      .error "ValueError: Not a boolean" := by
  constructor
  · exact (claim_c4_amended
      (fun k => if k = "fixed_width" then some "wide" else Option.none)
      "wide" (ConfigVal.int 37)).1 rfl (by decide) (by rfl)
  · exact (claim_c4_amended
      (fun k => if k = "underline" then some "maybe" else Option.none)
      "maybe" (ConfigVal.bool false)).2.2 rfl (by rfl)

/-! ## Claim C2: the wrapping step and style markers -/

/-- Claim C2 is a code bug: the renderer wraps with plain textwrap.fill,
which measures raw characters, so style escape markers count toward the
column width, and a token whose raw length exceeds the width is broken at
a raw-character boundary.  At width 5 a single replaced word of visible
length 1 (styled green as main does) is split right after its opening
style marker: the first wrapped line is the bare marker, separated from
the token's visible text, even though the token's visible length 1 fits
the width. -/
theorem claim_c2_wrap_splits_marker :
    fill (colored "a" "green") 5 = "\x1b[32m\na\x1b[0m" ∧
    visibleLen (colored "a" "green") = 1 := by
  constructor
  · rfl
  · show (strip_ansi_codes (colored "a" "green")).length = 1
    unfold strip_ansi_codes
    rw [show (colored "a" "green").data =
      ['\x1b', '[', '3', '2', 'm', 'a', '\x1b', '[', '0', 'm'] from rfl]
    rw [stripAnsi_of_match (show matchEsc
      ['\x1b', '[', '3', '2', 'm', 'a', '\x1b', '[', '0', 'm'] =
      some ['a', '\x1b', '[', '0', 'm'] by decide)]
    rw [stripAnsi_of_nomatch_cons (by decide)]
    rw [stripAnsi_of_match (show matchEsc ['\x1b', '[', '0', 'm'] = some [] by decide)]
    rw [stripAnsi_nil]
    rfl

/-! ## Claim C7: positional pairing in the line-pair expander -/

/-- Positional pairing as the spec words it: one pair per index below
max(leftCount, rightCount), substituting the empty string for the missing
side. -/
def positional_pairs (l r : List String) : List (String × String) :=
  (List.range (max l.length r.length)).map (fun i => (l.getD i "", r.getD i ""))

theorem zipLongest_eq_positional (l : List String) : ∀ r,
    zipLongest "" l r = positional_pairs l r := by
  induction l with
  | nil =>
    intro r
    induction r with
    | nil => simp [zipLongest, positional_pairs]
    | cons y ys ihr =>
      simp only [zipLongest]
      rw [ihr]
      unfold positional_pairs
      simp only [List.length_nil, List.length_cons, Nat.zero_max]
      rw [List.range_succ_eq_map]
      simp [List.map_map, Function.comp_def]
  | cons x xs ihl =>
    intro r
    cases r with
    | nil =>
      simp only [zipLongest]
      rw [ihl []]
      unfold positional_pairs
      simp only [List.length_cons, List.length_nil, Nat.max_zero]
      rw [List.range_succ_eq_map]
      simp [List.map_map, Function.comp_def]
    | cons y ys =>
      simp only [zipLongest]
      rw [ihl ys]
      unfold positional_pairs
      simp only [List.length_cons]
      rw [show max (xs.length + 1) (ys.length + 1) = max xs.length ys.length + 1 by omega]
      rw [List.range_succ_eq_map]
      simp [List.map_map, Function.comp_def]

/-- Claim C7: for every alignment operation the expander forms positional
pairs with empty-string substitution for a missing side, and forwards
exactly the pairs that are not blank on both sides after trimming. -/
theorem claim_c7 (orig_lines modified_lines : List String) (op : Opcode) :
    op_pairs orig_lines modified_lines op =
      (positional_pairs (pySlice orig_lines op.i1 op.i2)
          (pySlice modified_lines op.j1 op.j2)).filter
        (fun p => !(pyStrip p.1 = "" && pyStrip p.2 = "")) ∧
    ∀ p ∈ op_pairs orig_lines modified_lines op,
      ¬ (pyStrip p.1 = "" ∧ pyStrip p.2 = "") := by
  constructor
  · unfold op_pairs
    rw [zipLongest_eq_positional]
  · intro p hp
    unfold op_pairs at hp
    have := List.of_mem_filter hp
    intro hc
    rw [hc.1, hc.2] at this
    simp at this

/-! ## Claim C3: wrapped lines never exceed the width, so padded halves
hit the column width exactly -/

theorem chunkSum_append (l1 l2 : List (List Char)) :
    chunkSum (l1 ++ l2) = chunkSum l1 + chunkSum l2 := by
  unfold chunkSum
  rw [List.map_append, List.sum_append]

theorem chunkSum_dropLast_le (l : List (List Char)) :
    chunkSum l.dropLast ≤ chunkSum l := by
  conv_rhs => rw [show l = l.dropLast ++ l.drop (l.length - 1) by
    rw [List.dropLast_eq_take, List.take_append_drop]]
  rw [chunkSum_append]
  omega

theorem wrapInner_spec (w : Nat) : ∀ (chunks : List (List Char)) curLen curLine,
    curLen = chunkSum curLine → curLen ≤ w →
    (wrapInner w chunks curLen curLine).2.1 =
      chunkSum (wrapInner w chunks curLen curLine).2.2 ∧
    (wrapInner w chunks curLen curLine).2.1 ≤ w := by
  intro chunks
  induction chunks with
  | nil =>
    intro curLen curLine h1 h2
    simpa [wrapInner] using ⟨h1, h2⟩
  | cons c cs ih =>
    intro curLen curLine h1 h2
    by_cases hc : curLen + c.length ≤ w
    · simp only [wrapInner, if_pos hc]
      refine ih _ _ ?_ hc
      rw [chunkSum_append, h1]
      simp [chunkSum]
    · simp only [wrapInner, if_neg hc]
      exact ⟨h1, h2⟩

theorem rfindHyphen_lt {l : List Char} {bound hy : Nat}
    (h : rfindHyphen l bound = some hy) : hy < bound := by
  unfold rfindHyphen at h
  have hm := List.mem_of_mem_getLast? h
  have := (List.mem_filter.mp hm).1
  have := List.mem_range.mp this
  omega

theorem handleLongWord_spec (w : Nat) (hw : 1 ≤ w)
    (chunks curLine : List (List Char)) (curLen : Nat)
    (h1 : curLen = chunkSum curLine) (h2 : curLen ≤ w) :
    chunkSum (handleLongWord w chunks curLine curLen).2 ≤ w := by
  match chunks with
  | [] => simpa [handleLongWord] using h1 ▸ h2
  | c :: cs =>
    have hnw : ¬ w < 1 := by omega
    simp only [handleLongWord, hnw, if_false]
    have he : ∀ e : Nat, e ≤ w - curLen →
        chunkSum (curLine ++ [c.take e]) ≤ w := by
      intro e hee
      rw [chunkSum_append]
      have ht : (c.take e).length ≤ e := by
        rw [List.length_take]; omega
      have hs : chunkSum [c.take e] = (c.take e).length := by simp [chunkSum]
      rw [hs]
      omega
    by_cases hsl : w - curLen < c.length
    · rw [if_pos hsl]
      cases hrf : rfindHyphen c (w - curLen) with
      | none => simp only [hrf]; exact he _ le_rfl
      | some hy =>
        simp only [hrf]
        have hlt := rfindHyphen_lt hrf
        by_cases hcnd : 0 < hy ∧ ((c.take hy).any fun x => decide (x ≠ '-')) = true
        · rw [if_pos hcnd]
          exact he _ (by omega)
        · rw [if_neg hcnd]
          exact he _ le_rfl
    · rw [if_neg hsl]
      exact he _ le_rfl

theorem wrapBreak_spec (w : Nat) (hw : 1 ≤ w)
    (st : List (List Char) × Nat × List (List Char))
    (h1 : st.2.1 = chunkSum st.2.2) (h2 : st.2.1 ≤ w) :
    chunkSum (wrapBreak w st).2 ≤ w := by
  unfold wrapBreak
  cases hS : st.1 with
  | nil => exact h1 ▸ h2
  | cons c rest =>
    by_cases hcl : w < c.length
    · simp only [hcl, if_true]
      exact handleLongWord_spec w hw _ _ _ h1 h2
    · simp only [hcl, if_false]
      exact h1 ▸ h2

theorem wrapTrim_spec (line : List (List Char)) :
    chunkSum (wrapTrim line) ≤ chunkSum line := by
  unfold wrapTrim
  cases hL : line.getLast? with
  | none => exact le_rfl
  | some lc =>
    show chunkSum (if isBlankChunk lc = true then line.dropLast else line) ≤
      chunkSum line
    by_cases hb : isBlankChunk lc = true
    · simp only [hb, if_true]
      exact chunkSum_dropLast_le _
    · rw [if_neg hb]

theorem wrapStep_lines_le (w : Nat) (hw : 1 ≤ w) (c0 : List Char)
    (cs0 lines : List (List Char)) (h : ∀ l ∈ lines, l.length ≤ w) :
    ∀ l ∈ (wrapStep w c0 cs0 lines).2, l.length ≤ w := by
  intro l hl
  simp only [wrapStep] at hl
  have hst := wrapInner_spec w
    (if isBlankChunk c0 && !lines.isEmpty then cs0 else c0 :: cs0) 0 []
    (by simp [chunkSum]) (by omega)
  have hsum : chunkSum (wrapTrim (wrapBreak w (wrapInner w
      (if isBlankChunk c0 && !lines.isEmpty then cs0 else c0 :: cs0) 0 [])).2) ≤ w :=
    le_trans (wrapTrim_spec _) (wrapBreak_spec w hw _ hst.1 hst.2)
  by_cases hemp : (wrapTrim (wrapBreak w (wrapInner w
      (if isBlankChunk c0 && !lines.isEmpty then cs0 else c0 :: cs0) 0 [])).2).isEmpty = true
  · rw [if_pos hemp] at hl
    exact h l hl
  · rw [if_neg hemp] at hl
    rcases List.mem_append.mp hl with hmem | hmem
    · exact h l hmem
    · have hfl : l = (wrapTrim (wrapBreak w (wrapInner w
          (if isBlankChunk c0 && !lines.isEmpty then cs0 else c0 :: cs0) 0 [])).2).flatten := by
        simpa using hmem
      subst hfl
      rw [List.length_flatten]
      exact hsum

theorem wrapChunksGo_length_le (w : Nat) (hw : 1 ≤ w) :
    ∀ fuel (chunks lines : List (List Char)),
    (∀ l ∈ lines, l.length ≤ w) →
    ∀ l ∈ wrapChunksGo w fuel chunks lines, l.length ≤ w := by
  intro fuel
  induction fuel with
  | zero =>
    intro chunks lines h l hl
    exact h l (by simpa [wrapChunksGo] using hl)
  | succ fuel ih =>
    intro chunks lines h
    cases chunks with
    | nil =>
      intro l hl
      exact h l (by simpa [wrapChunksGo] using hl)
    | cons c0 cs0 =>
      intro l hl
      simp only [wrapChunksGo] at hl
      exact ih _ _ (wrapStep_lines_le w hw c0 cs0 lines h) l hl

theorem wrapChunks_length_le {w : Nat} (chunks : List (List Char)) :
    ∀ l ∈ wrapChunks w chunks, l.length ≤ w := by
  intro l hl
  unfold wrapChunks at hl
  by_cases hz : w = 0
  · rw [if_pos hz] at hl; simp at hl
  · rw [if_neg hz] at hl
    exact wrapChunksGo_length_le w (by omega) _ _ [] (by simp) l hl

theorem splitSep_ne_nil (sep : Char) (l : List Char) :
    splitSepChars sep l ≠ [] := by
  cases l with
  | nil => simp [splitSepChars]
  | cons c cs =>
    by_cases hc : c = sep
    · simp [splitSepChars, hc]
    · simp only [splitSepChars, hc, if_false]
      cases h : splitSepChars sep cs with
      | nil => exact absurd h (splitSep_ne_nil sep cs)
      | cons a t => simp

theorem splitSep_cons_sep (sep : Char) (cs : List Char) :
    splitSepChars sep (sep :: cs) = [] :: splitSepChars sep cs := by
  simp [splitSepChars]

theorem splitSep_cons_ne (sep c : Char) (hc : ¬ c = sep) (cs : List Char) :
    splitSepChars sep (c :: cs) = (splitSepChars sep cs).modifyHead (c :: ·) := by
  simp [splitSepChars, hc]

theorem splitSep_append_sep (sep : Char) (a b : List Char) :
    splitSepChars sep (a ++ sep :: b) =
      splitSepChars sep a ++ splitSepChars sep b := by
  induction a with
  | nil =>
    show splitSepChars sep (sep :: b) = splitSepChars sep [] ++ _
    rw [splitSep_cons_sep]
    simp [splitSepChars]
  | cons c cs ih =>
    by_cases hc : c = sep
    · subst hc
      rw [List.cons_append, splitSep_cons_sep, splitSep_cons_sep, ih]
      rfl
    · rw [List.cons_append, splitSep_cons_ne sep c hc, splitSep_cons_ne sep c hc, ih]
      cases h : splitSepChars sep cs with
      | nil => exact absurd h (splitSep_ne_nil sep cs)
      | cons x t => simp [List.modifyHead_cons]

theorem splitSep_piece_le (sep : Char) (l : List Char) :
    ∀ p ∈ splitSepChars sep l, p.length ≤ l.length := by
  induction l with
  | nil =>
    intro p hp
    simp [splitSepChars] at hp
    simp [hp]
  | cons c cs ih =>
    intro p hp
    by_cases hc : c = sep
    · subst hc
      rw [splitSep_cons_sep] at hp
      rcases List.mem_cons.mp hp with h1 | h2
      · simp [h1]
      · have := ih p h2; simp; omega
    · rw [splitSep_cons_ne sep c hc] at hp
      cases hsp : splitSepChars sep cs with
      | nil => exact absurd hsp (splitSep_ne_nil sep cs)
      | cons x t =>
        rw [hsp, List.modifyHead_cons] at hp
        rcases List.mem_cons.mp hp with h1 | h2
        · subst h1
          have := ih x (by rw [hsp]; simp)
          simp
          omega
        · have := ih p (by rw [hsp]; exact List.mem_cons_of_mem x h2)
          simp
          omega

theorem intercalate_nl (x : List Char) (ys : List (List Char)) (h : ys ≠ []) :
    List.intercalate ['\n'] (x :: ys) = x ++ '\n' :: List.intercalate ['\n'] ys := by
  cases ys with
  | nil => exact absurd rfl h
  | cons y t =>
    simp [List.intercalate, List.intersperse]

theorem splitSep_intercalate_piece_le (w : Nat) :
    ∀ (ls : List (List Char)), (∀ l ∈ ls, l.length ≤ w) →
    ∀ p ∈ splitSepChars '\n' (List.intercalate ['\n'] ls), p.length ≤ w := by
  intro ls
  induction ls with
  | nil =>
    intro _ p hp
    simp [List.intercalate, splitSepChars] at hp
    simp [hp]
  | cons x ys ih =>
    intro h p hp
    cases hys : ys with
    | nil =>
      subst hys
      rw [show List.intercalate ['\n'] [x] = x by
        simp [List.intercalate, List.intersperse]] at hp
      exact le_trans (splitSep_piece_le '\n' x p hp) (h x (by simp))
    | cons y t =>
      rw [intercalate_nl x ys (by rw [hys]; simp), splitSep_append_sep] at hp
      rcases List.mem_append.mp hp with h1 | h2
      · exact le_trans (splitSep_piece_le '\n' x p h1) (h x (by simp))
      · exact ih (fun l hl => h l (List.mem_cons_of_mem x hl)) p (hys ▸ h2)

theorem visibleLen_mk_le (p : List Char) : visibleLen (String.mk p) ≤ p.length := by
  unfold visibleLen strip_ansi_codes
  show (stripAnsiChars p).length ≤ p.length
  exact stripAnsi_length_le p

theorem fill_piece_visible_le (s : String) (w : Nat) :
    ∀ x ∈ pySplitSep (fill s w) '\n', visibleLen x ≤ w := by
  intro x hx
  unfold pySplitSep at hx
  rcases List.mem_map.mp hx with ⟨p, hp, hpx⟩
  subst hpx
  refine le_trans (visibleLen_mk_le p) ?_
  unfold fill at hp
  rw [show (String.mk (List.intercalate ['\n']
      (wrapChunks w (splitRuns (mungeWhitespace s.data))))).data =
    List.intercalate ['\n'] (wrapChunks w (splitRuns (mungeWhitespace s.data)))
    from rfl] at hp
  exact splitSep_intercalate_piece_le w _
    (fun l hl => wrapChunks_length_le _ l hl) p hp

theorem visibleLen_empty : visibleLen "" = 0 := by
  unfold visibleLen strip_ansi_codes
  show (stripAnsiChars []).length = 0
  rw [stripAnsi_nil]
  rfl

theorem pad_text_visible_eq (t : String) (w : Nat) (h : visibleLen t ≤ w) :
    visibleLen (pad_text t w) = w := by
  have pe : pad_text t w = if visibleLen t < w then
      t ++ String.mk (List.replicate (w - visibleLen t) ' ') else t := rfl
  by_cases hlt : visibleLen t < w
  · rw [pe, if_pos hlt, visibleLen_append_spaces]; omega
  · rw [pe, if_neg hlt]; omega

/-- Claim C3: every rendered diff row is two visibly padded halves joined
by the column separator, and each half's visible length (style markers
ignored) is exactly the configured column width. -/
theorem claim_c3 (colors : Colors) (color underline : Bool) (w : Nat)
    (orig modified : String) :
    ∀ row ∈ rows_for_pair colors color underline w orig modified,
      ∃ lh rh, row = lh ++ " | " ++ rh ∧ visibleLen lh = w ∧ visibleLen rh = w := by
  intro row hrow
  unfold rows_for_pair at hrow
  rcases List.mem_map.mp hrow with ⟨p, hp, hpr⟩
  have hmem := List.of_mem_zip hp
  have bound : ∀ (s : String) (n : Nat),
      p.1 ∈ pySplitSep (fill s w) '\n' ++ List.replicate n "" →
      visibleLen p.1 ≤ w := by
    intro s n hm
    rcases List.mem_append.mp hm with h1 | h1
    · exact fill_piece_visible_le s w _ h1
    · rw [List.eq_of_mem_replicate h1, visibleLen_empty]; omega
  have bound2 : ∀ (s : String) (n : Nat),
      p.2 ∈ pySplitSep (fill s w) '\n' ++ List.replicate n "" →
      visibleLen p.2 ≤ w := by
    intro s n hm
    rcases List.mem_append.mp hm with h1 | h1
    · exact fill_piece_visible_le s w _ h1
    · rw [List.eq_of_mem_replicate h1, visibleLen_empty]; omega
  refine ⟨pad_text p.1 w, pad_text p.2 w, ?_, ?_, ?_⟩
  · rw [← hpr]
  · exact pad_text_visible_eq _ _ (bound _ _ hmem.1)
  · exact pad_text_visible_eq _ _ (bound2 _ _ hmem.2)

/-! ## find_longest_match: range validity and match property

These lemmas establish, for arbitrary inputs, that find_longest_match
returns a triple (i, j, k) with alo <= i, i+k <= ahi, blo <= j,
j+k <= bhi, and a[i+t] = b[j+t] for every t < k.  They are the core facts
behind the reconstruction invariant (C8), the equal-opcode property (C6)
and the identical-input theorem (C5). -/

/-- Valid match within the rectangle [alo, ahi) x [blo, bhi). -/
def MatchInv (a b : List String) (alo ahi blo bhi : Nat) (m : BestMatch) : Prop :=
  alo ≤ m.besti ∧ m.besti + m.bestsize ≤ ahi ∧ blo ≤ m.bestj ∧
  m.bestj + m.bestsize ≤ bhi ∧
  ∀ t < m.bestsize, a.getD (m.besti + t) "" = b.getD (m.bestj + t) ""

/-- Invariant of the dict produced by processing row i: every positive
entry at key j records a diagonal-chain length ending at (i, j), within
the rectangle. -/
def EntryInv (a b : List String) (alo blo bhi i : Nat) (f : Nat → Nat) : Prop :=
  ∀ j, 0 < f j → blo ≤ j ∧ j < bhi ∧ f j ≤ i + 1 - alo ∧ f j ≤ j + 1 - blo ∧
    ∀ t < f j, a.getD (i - t) "" = b.getD (j - t) ""

/-- Same invariant read as the previous row's dict for row i. -/
def PrevInv (a b : List String) (alo blo bhi i : Nat) (f : Nat → Nat) : Prop :=
  ∀ j, 0 < f j → blo ≤ j ∧ j < bhi ∧ f j ≤ i - alo ∧ f j ≤ j + 1 - blo ∧
    ∀ t < f j, a.getD (i - 1 - t) "" = b.getD (j - t) ""

theorem entryInv_to_prevInv {a b : List String} {alo blo bhi i : Nat}
    {f : Nat → Nat} (h : EntryInv a b alo blo bhi i f) :
    PrevInv a b alo blo bhi (i + 1) f := by
  intro j hj
  obtain ⟨h1, h2, h3, h4, h5⟩ := h j hj
  exact ⟨h1, h2, by omega, h4, by simpa using h5⟩

theorem b2j_mem {b : List String} {x : String} {j : Nat} (h : j ∈ b2j b x) :
    j < b.length ∧ b.getD j "" = x := by
  unfold b2j at h
  by_cases hp : isPopular b x
  · rw [if_pos hp] at h; simp at h
  · rw [if_neg hp] at h
    unfold occurrenceIdx at h
    have := List.mem_filter.mp h
    exact ⟨List.mem_range.mp this.1, by simpa using this.2⟩

theorem flmInner_inv (a b : List String) (alo blo bhi i : Nat)
    (old : Nat → Nat) (hi : alo ≤ i) (hia : i < a.length)
    (hold : PrevInv a b alo blo bhi i old) :
    ∀ (js : List Nat) (new : Nat → Nat) (best : BestMatch),
    (∀ j ∈ js, j < b.length ∧ b.getD j "" = a.getD i "") →
    EntryInv a b alo blo bhi i new →
    MatchInv a b alo (i + 1) blo bhi best →
    EntryInv a b alo blo bhi i (flmInner i blo bhi old js new best).1 ∧
    MatchInv a b alo (i + 1) blo bhi (flmInner i blo bhi old js new best).2 := by
  intro js
  induction js with
  | nil =>
    intro new best _ hnew hbest
    exact ⟨hnew, hbest⟩
  | cons j js ih =>
    intro new best hjs hnew hbest
    by_cases hlo : j < blo
    · simp only [flmInner, if_pos hlo]
      exact ih new best (fun x hx => hjs x (List.mem_cons_of_mem j hx)) hnew hbest
    · by_cases hhi : bhi ≤ j
      · simp only [flmInner, if_neg hlo, if_pos hhi]
        exact ⟨hnew, hbest⟩
      · simp only [flmInner, if_neg hlo, if_pos, if_neg hhi]
        have hjb := hjs j (by simp)
        -- facts about k
        have hk : EntryInv a b alo blo bhi i
            (Function.update new j (getPrev old j + 1)) := by
          intro j' hj'
          by_cases hjj : j' = j
          · subst hjj
            rw [Function.update_same] at hj' ⊢
            refine ⟨by omega, by omega, ?_, ?_, ?_⟩
            · -- k <= i + 1 - alo
              unfold getPrev
              by_cases hz : j' = 0
              · rw [if_pos hz]; omega
              · rw [if_neg hz]
                by_cases hpos : 0 < old (j' - 1)
                · have := (hold (j' - 1) hpos).2.2.1
                  omega
                · omega
            · -- k <= j + 1 - blo
              unfold getPrev
              by_cases hz : j' = 0
              · rw [if_pos hz]; omega
              · rw [if_neg hz]
                by_cases hpos : 0 < old (j' - 1)
                · have := (hold (j' - 1) hpos).2.2.2.1
                  have := (hold (j' - 1) hpos).1
                  omega
                · omega
            · -- the chain
              intro t ht
              cases t with
              | zero => simpa using hjb.2.symm
              | succ t =>
                unfold getPrev at ht
                by_cases hz : j' = 0
                · rw [if_pos hz] at ht; omega
                · rw [if_neg hz] at ht
                  have hpos : 0 < old (j' - 1) := by omega
                  obtain ⟨p1, p2, p3, p4, p5⟩ := hold (j' - 1) hpos
                  have hch := p5 t (by omega)
                  have e1 : i - 1 - t = i - (t + 1) := by
                    have : 0 < i := by omega
                    omega
                  have e2 : j' - 1 - t = j' - (t + 1) := by omega
                  rw [e1, e2] at hch
                  exact hch
          · rw [Function.update_noteq hjj] at hj' ⊢
            exact hnew j' hj'
        have hkj := hk j (by rw [Function.update_same]; omega)
        rw [Function.update_same] at hkj
        have hbest2 : MatchInv a b alo (i + 1) blo bhi
            (if best.bestsize < getPrev old j + 1 then
              ⟨i + 1 - (getPrev old j + 1), j + 1 - (getPrev old j + 1),
                getPrev old j + 1⟩ else best) := by
          by_cases hup : best.bestsize < getPrev old j + 1
          · rw [if_pos hup]
            obtain ⟨q1, q2, q3, q4, q5⟩ := hkj
            dsimp only [MatchInv]
            refine ⟨by omega, by omega, by omega, by omega, ?_⟩
            intro t ht
            have hch := q5 (getPrev old j + 1 - 1 - t) (by omega)
            have e1 : i - (getPrev old j + 1 - 1 - t) =
                i + 1 - (getPrev old j + 1) + t := by omega
            have e2 : j - (getPrev old j + 1 - 1 - t) =
                j + 1 - (getPrev old j + 1) + t := by omega
            rw [e1, e2] at hch
            exact hch
          · rw [if_neg hup]
            exact hbest
        exact ih _ _ (fun x hx => hjs x (List.mem_cons_of_mem j hx)) hk hbest2

theorem matchInv_widen {a b : List String} {alo i blo bhi : Nat}
    {best : BestMatch} (h : MatchInv a b alo i blo bhi best) (i' : Nat)
    (hii : i ≤ i') : MatchInv a b alo i' blo bhi best := by
  obtain ⟨h1, h2, h3, h4, h5⟩ := h
  exact ⟨h1, by omega, h3, h4, h5⟩

theorem flmRows_inv (a b : List String) (alo blo bhi : Nat) :
    ∀ (cnt i0 : Nat) (st : (Nat → Nat) × BestMatch), alo ≤ i0 →
    i0 + cnt ≤ a.length →
    PrevInv a b alo blo bhi i0 st.1 →
    MatchInv a b alo i0 blo bhi st.2 →
    MatchInv a b alo (i0 + cnt) blo bhi
      (flmRows a b blo bhi (List.range' i0 cnt) st).2 := by
  intro cnt
  induction cnt with
  | zero =>
    intro i0 st _ _ _ hb
    simpa [flmRows] using hb
  | succ cnt ih =>
    intro i0 st hi0 hcnt hprev hbest
    rw [List.range'_succ]
    show MatchInv a b alo (i0 + (cnt + 1)) blo bhi
      (flmRows a b blo bhi (List.range' (i0 + 1) cnt)
        (flmInner i0 blo bhi st.1 (b2j b (a.getD i0 "")) (fun _ => 0) st.2)).2
    have hstep := flmInner_inv a b alo blo bhi i0 st.1 hi0 (by omega) hprev
      (b2j b (a.getD i0 "")) (fun _ => 0) st.2
      (fun j hj => b2j_mem hj)
      (by intro j hj; simp at hj)
      (matchInv_widen hbest (i0 + 1) (by omega))
    have := ih (i0 + 1)
      (flmInner i0 blo bhi st.1 (b2j b (a.getD i0 "")) (fun _ => 0) st.2)
      (by omega) (by omega)
      (entryInv_to_prevInv hstep.1) hstep.2
    have e : i0 + 1 + cnt = i0 + (cnt + 1) := by omega
    rw [e] at this
    exact this

theorem extLowerNon_inv (a b : List String) (alo ahi blo bhi : Nat) :
    ∀ besti bestj bestsize,
    MatchInv a b alo ahi blo bhi ⟨besti, bestj, bestsize⟩ →
    MatchInv a b alo ahi blo bhi
      (extLowerNon a b alo blo besti bestj bestsize) := by
  intro besti
  induction besti using Nat.strong_induction_on with
  | _ besti ih =>
    intro bestj bestsize hm
    rw [extLowerNon]
    split
    · next h =>
      obtain ⟨hc1, hc2, hc3, hc4⟩ := h
      refine ih (besti - 1) (by omega) (bestj - 1) (bestsize + 1) ?_
      obtain ⟨m1, m2, m3, m4, m5⟩ := hm
      dsimp only [MatchInv] at m1 m2 m3 m4 m5 ⊢
      refine ⟨by omega, by omega, by omega, by omega, ?_⟩
      intro t ht
      cases t with
      | zero => simpa using hc4
      | succ t =>
        have := m5 t (by omega)
        have e1 : besti - 1 + (t + 1) = besti + t := by omega
        have e2 : bestj - 1 + (t + 1) = bestj + t := by omega
        rw [e1, e2]
        exact this
    · exact hm

theorem extUpperNon_inv (a b : List String) (alo ahi blo bhi : Nat) :
    ∀ (n besti bestj bestsize : Nat), ahi - (besti + bestsize) ≤ n →
    MatchInv a b alo ahi blo bhi ⟨besti, bestj, bestsize⟩ →
    MatchInv a b alo ahi blo bhi
      (extUpperNon a b ahi bhi besti bestj bestsize) := by
  intro n
  induction n with
  | zero =>
    intro besti bestj bestsize hn hm
    rw [extUpperNon]
    split
    · next h => exact absurd h.1 (by omega)
    · exact hm
  | succ n ih =>
    intro besti bestj bestsize hn hm
    rw [extUpperNon]
    split
    · next h =>
      obtain ⟨hc1, hc2, hc3, hc4⟩ := h
      refine ih besti bestj (bestsize + 1) (by omega) ?_
      obtain ⟨m1, m2, m3, m4, m5⟩ := hm
      dsimp only [MatchInv] at m1 m2 m3 m4 m5 ⊢
      refine ⟨m1, by omega, m3, by omega, ?_⟩
      intro t ht
      by_cases htt : t < bestsize
      · exact m5 t htt
      · have : t = bestsize := by omega
        subst this
        exact hc4
    · exact hm

theorem extLowerJunk_id (a b : List String) (alo blo besti bestj bestsize : Nat) :
    extLowerJunk a b alo blo besti bestj bestsize = ⟨besti, bestj, bestsize⟩ := by
  rw [extLowerJunk]
  split
  · next h => exact absurd h.2.2.1 (by simp [isbjunk])
  · rfl

theorem extUpperJunk_id (a b : List String) (ahi bhi besti bestj bestsize : Nat) :
    extUpperJunk a b ahi bhi besti bestj bestsize = ⟨besti, bestj, bestsize⟩ := by
  rw [extUpperJunk]
  split
  · next h => exact absurd h.2.2.1 (by simp [isbjunk])
  · rfl

theorem find_longest_match_inv (a b : List String) (alo ahi blo bhi : Nat)
    (h1 : alo ≤ ahi) (h2 : ahi ≤ a.length) (h3 : blo ≤ bhi)
    (h4 : bhi ≤ b.length) :
    MatchInv a b alo ahi blo bhi (find_longest_match a b alo ahi blo bhi) := by
  simp only [find_longest_match]
  have hinit : MatchInv a b alo alo blo bhi ⟨alo, blo, 0⟩ := by
    refine ⟨le_rfl, ?_, le_rfl, ?_, ?_⟩
    · show alo + 0 ≤ alo; omega
    · show blo + 0 ≤ bhi; omega
    · intro t ht
      have hz : t < 0 := ht
      exact absurd hz (Nat.not_lt_zero t)
  have hrows := flmRows_inv a b alo blo bhi (ahi - alo) alo
    ((fun _ => 0 : Nat → Nat), (⟨alo, blo, 0⟩ : BestMatch))
    le_rfl (by omega)
    (by intro j hj; simp at hj)
    hinit
  rw [show alo + (ahi - alo) = ahi by omega] at hrows
  have hlow := extLowerNon_inv a b alo ahi blo bhi _ _ _ hrows
  have hup := extUpperNon_inv a b alo ahi blo bhi ahi _ _ _ (by omega) hlow
  rw [extLowerJunk_id, extUpperJunk_id]
  exact hup

/-! ## find_longest_match on identical sequences (toward claim C5)

For a = b, every update of the dynamic-programming loop is on the main
diagonal: a chain ending at (i, j) needs nonpopular elements at all its
rows, so the diagonal chain over the same rows is at least as long, and
diagonal chains are found first (for j < i at an earlier row, for j > i
later within the row).  The extension loops then grow the diagonal match
to the whole range, because bjunk is empty and all elements are equal. -/

/-- Length of the consecutive run of nonpopular elements ending at r. -/
def diagRun (s : List String) : Nat → Nat
  | 0 => if isPopular s (s.getD 0 "") then 0 else 1
  | Nat.succ r => if isPopular s (s.getD (r + 1) "") then 0 else diagRun s r + 1

/-- diagRun of the row before i (0 for the first row). -/
def diagPrev (s : List String) (i : Nat) : Nat :=
  if i = 0 then 0 else diagRun s (i - 1)

theorem diagRun_eq (s : List String) (i : Nat) :
    diagRun s i = if isPopular s (s.getD i "") then 0 else diagPrev s i + 1 := by
  cases i with
  | zero => simp [diagRun, diagPrev]
  | succ r => simp [diagRun, diagPrev]

/-- Invariant of the previous row's dict entering row i, for a = b = s. -/
def OldDiag (s : List String) (i : Nat) (f : Nat → Nat) : Prop :=
  (∀ j, f j ≤ diagPrev s i ∧ f j ≤ diagRun s j) ∧ getPrev f i = diagPrev s i

/-- Invariant of the running best before row i, for a = b = s: diagonal,
and at least every completed diagonal run. -/
def DiagBest (s : List String) (i : Nat) (best : BestMatch) : Prop :=
  best.besti = best.bestj ∧ ∀ r < i, diagRun s r ≤ best.bestsize

theorem flmInner_append (i blo bhi : Nat) (old : Nat → Nat) :
    ∀ (l1 l2 : List Nat) (new : Nat → Nat) (best : BestMatch),
    (∀ j ∈ l1, j < bhi) →
    flmInner i blo bhi old (l1 ++ l2) new best =
      flmInner i blo bhi old l2 (flmInner i blo bhi old l1 new best).1
        (flmInner i blo bhi old l1 new best).2 := by
  intro l1
  induction l1 with
  | nil => intro l2 new best _; rfl
  | cons j l1 ih =>
    intro l2 new best hb
    by_cases hlo : j < blo
    · rw [List.cons_append]
      simp only [flmInner, if_pos hlo]
      exact ih l2 new best (fun x hx => hb x (List.mem_cons_of_mem j hx))
    · have hhi : ¬ bhi ≤ j := by
        have := hb j (by simp); omega
      rw [List.cons_append]
      simp only [flmInner, if_neg hlo, if_neg hhi]
      exact ih l2 _ _ (fun x hx => hb x (List.mem_cons_of_mem j hx))

/-- Bound on an inner-loop chain value at column j, for a = b = s, when
the element at j equals the (nonpopular) element at the current row i. -/
theorem diag_k_bounds (s : List String) (i j : Nat)
    (hnp : isPopular s (s.getD i "") = false) (old : Nat → Nat)
    (hold : OldDiag s i old) (hval : s.getD j "" = s.getD i "") :
    getPrev old j + 1 ≤ diagRun s i ∧ getPrev old j + 1 ≤ diagRun s j := by
  have hnpj : isPopular s (s.getD j "") = false := by rw [hval]; exact hnp
  constructor
  · have h1 : getPrev old j ≤ diagPrev s i := by
      unfold getPrev
      by_cases hz : j = 0
      · rw [if_pos hz]; omega
      · rw [if_neg hz]; exact (hold.1 (j - 1)).1
    rw [diagRun_eq s i, hnp]
    simp only [Bool.false_eq_true, if_false]
    omega
  · unfold getPrev
    by_cases hz : j = 0
    · rw [if_pos hz, diagRun_eq s j, hnpj]
      simp only [Bool.false_eq_true, if_false]
      omega
    · rw [if_neg hz]
      have h2 : old (j - 1) ≤ diagRun s (j - 1) := (hold.1 (j - 1)).2
      rw [diagRun_eq s j, hnpj]
      simp only [Bool.false_eq_true, if_false]
      unfold diagPrev
      rw [if_neg hz]
      omega

theorem flmInner_diag_low (s : List String) (i : Nat)
    (hnp : isPopular s (s.getD i "") = false) (old : Nat → Nat)
    (hold : OldDiag s i old) :
    ∀ (js : List Nat) (new : Nat → Nat) (best : BestMatch),
    (∀ j ∈ js, j < i ∧ j < s.length ∧ s.getD j "" = s.getD i "") →
    DiagBest s i best →
    (∀ j, new j ≤ diagRun s i ∧ new j ≤ diagRun s j) →
    (flmInner i 0 s.length old js new best).2 = best ∧
    (∀ j, (flmInner i 0 s.length old js new best).1 j ≤ diagRun s i ∧
      (flmInner i 0 s.length old js new best).1 j ≤ diagRun s j) ∧
    (flmInner i 0 s.length old js new best).1 i = new i := by
  intro js
  induction js with
  | nil =>
    intro new best _ _ hnb
    exact ⟨rfl, hnb, rfl⟩
  | cons j js ih =>
    intro new best hjs hbest hnb
    obtain ⟨hji, hjn, hval⟩ := hjs j (by simp)
    have hlo : ¬ j < 0 := by omega
    have hhi : ¬ s.length ≤ j := by omega
    simp only [flmInner, if_neg hlo, if_neg hhi]
    have hk := diag_k_bounds s i j hnp old hold hval
    have hnup : ¬ best.bestsize < getPrev old j + 1 := by
      have := hbest.2 j hji
      omega
    rw [if_neg hnup]
    have hres := ih (Function.update new j (getPrev old j + 1)) best
      (fun x hx => hjs x (List.mem_cons_of_mem j hx)) hbest
      (by
        intro j'
        by_cases hjj : j' = j
        · subst hjj
          rw [Function.update_same]
          exact hk
        · rw [Function.update_noteq hjj]
          exact hnb j')
    refine ⟨hres.1, hres.2.1, ?_⟩
    rw [hres.2.2, Function.update_noteq (show i ≠ j by omega)]

theorem flmInner_diag_high (s : List String) (i : Nat)
    (hnp : isPopular s (s.getD i "") = false) (old : Nat → Nat)
    (hold : OldDiag s i old) :
    ∀ (js : List Nat) (new : Nat → Nat) (best : BestMatch),
    (∀ j ∈ js, i < j ∧ j < s.length ∧ s.getD j "" = s.getD i "") →
    best.besti = best.bestj →
    diagRun s i ≤ best.bestsize →
    (∀ j, new j ≤ diagRun s i ∧ new j ≤ diagRun s j) →
    (flmInner i 0 s.length old js new best).2 = best ∧
    (∀ j, (flmInner i 0 s.length old js new best).1 j ≤ diagRun s i ∧
      (flmInner i 0 s.length old js new best).1 j ≤ diagRun s j) ∧
    (flmInner i 0 s.length old js new best).1 i = new i := by
  intro js
  induction js with
  | nil =>
    intro new best _ _ _ hnb
    exact ⟨rfl, hnb, rfl⟩
  | cons j js ih =>
    intro new best hjs hdiag hge hnb
    obtain ⟨hji, hjn, hval⟩ := hjs j (by simp)
    have hlo : ¬ j < 0 := by omega
    have hhi : ¬ s.length ≤ j := by omega
    simp only [flmInner, if_neg hlo, if_neg hhi]
    have hk := diag_k_bounds s i j hnp old hold hval
    have hnup : ¬ best.bestsize < getPrev old j + 1 := by omega
    rw [if_neg hnup]
    have hres := ih (Function.update new j (getPrev old j + 1)) best
      (fun x hx => hjs x (List.mem_cons_of_mem j hx)) hdiag hge
      (by
        intro j'
        by_cases hjj : j' = j
        · subst hjj
          rw [Function.update_same]
          exact hk
        · rw [Function.update_noteq hjj]
          exact hnb j')
    refine ⟨hres.1, hres.2.1, ?_⟩
    rw [hres.2.2, Function.update_noteq (show i ≠ j by omega)]

theorem diagPrev_succ (s : List String) (i : Nat) :
    diagPrev s (i + 1) = diagRun s i := by
  unfold diagPrev
  simp

theorem getPrev_succ (f : Nat → Nat) (i : Nat) : getPrev f (i + 1) = f i := by
  unfold getPrev
  simp

theorem occurrenceIdx_sorted (b : List String) (x : String) :
    (occurrenceIdx b x).Pairwise (· < ·) :=
  (List.pairwise_lt_range b.length).filter _

theorem b2j_sorted (b : List String) (x : String) :
    (b2j b x).Pairwise (· < ·) := by
  unfold b2j
  by_cases hp : isPopular b x
  · rw [if_pos hp]; simp
  · rw [if_neg hp]; exact occurrenceIdx_sorted b x

theorem b2j_self_mem (s : List String) (i : Nat) (hin : i < s.length)
    (hnp : isPopular s (s.getD i "") = false) :
    i ∈ b2j s (s.getD i "") := by
  unfold b2j
  rw [if_neg (by rw [hnp]; simp)]
  unfold occurrenceIdx
  rw [List.mem_filter]
  exact ⟨List.mem_range.mpr hin, by simp⟩

theorem flmRow_diag (s : List String) (i : Nat) (hin : i < s.length)
    (old : Nat → Nat) (hold : OldDiag s i old) (best : BestMatch)
    (hbest : DiagBest s i best) :
    DiagBest s (i + 1)
      (flmInner i 0 s.length old (b2j s (s.getD i "")) (fun _ => 0) best).2 ∧
    OldDiag s (i + 1)
      (flmInner i 0 s.length old (b2j s (s.getD i "")) (fun _ => 0) best).1 := by
  by_cases hp : isPopular s (s.getD i "") = true
  · rw [show b2j s (s.getD i "") = [] by unfold b2j; rw [if_pos hp]]
    have hzero : diagRun s i = 0 := by
      rw [diagRun_eq, hp]
      simp
    constructor
    · refine ⟨hbest.1, ?_⟩
      intro r hr
      by_cases hri : r < i
      · exact hbest.2 r hri
      · have : r = i := by omega
        subst this
        rw [hzero]
        omega
    · constructor
      · intro j
        exact ⟨Nat.zero_le _, Nat.zero_le _⟩
      · show getPrev (fun _ => 0) (i + 1) = diagPrev s (i + 1)
        rw [diagPrev_succ, hzero]
        unfold getPrev
        simp
  · have hnp : isPopular s (s.getD i "") = false := by
      cases h : isPopular s (s.getD i "")
      · rfl
      · exact absurd h hp
    have hmem : i ∈ b2j s (s.getD i "") := b2j_self_mem s i hin hnp
    obtain ⟨L, H, hLH⟩ := List.append_of_mem hmem
    have hsorted : (L ++ i :: H).Pairwise (· < ·) := by
      rw [← hLH]; exact b2j_sorted s (s.getD i "")
    have hpair := List.pairwise_append.mp hsorted
    have hLlt : ∀ j ∈ L, j < i := fun j hj => hpair.2.2 j hj i (by simp)
    have hHgt : ∀ j ∈ H, i < j := (List.pairwise_cons.mp hpair.2.1).1
    have hmemall : ∀ j ∈ L ++ i :: H, j < s.length ∧ s.getD j "" = s.getD i "" := by
      intro j hj
      exact b2j_mem (by rw [hLH]; exact hj)
    rw [hLH]
    rw [flmInner_append i 0 s.length old L (i :: H) _ _
      (fun j hj => (hmemall j (List.mem_append_left _ hj)).1)]
    have hlow := flmInner_diag_low s i hnp old hold L (fun _ => 0) best
      (fun j hj => ⟨hLlt j hj, (hmemall j (List.mem_append_left _ hj)).1,
        (hmemall j (List.mem_append_left _ hj)).2⟩)
      hbest (fun j => ⟨Nat.zero_le _, Nat.zero_le _⟩)
    rw [hlow.1]
    have hki : getPrev old i + 1 = diagRun s i := by
      rw [hold.2, diagRun_eq, hnp]
      simp
    simp only [flmInner, if_neg (show ¬ i < 0 by omega),
      if_neg (show ¬ s.length ≤ i by omega)]
    have hb2 : (if best.bestsize < getPrev old i + 1 then
          (⟨i + 1 - (getPrev old i + 1), i + 1 - (getPrev old i + 1),
            getPrev old i + 1⟩ : BestMatch) else best).besti =
        (if best.bestsize < getPrev old i + 1 then
          (⟨i + 1 - (getPrev old i + 1), i + 1 - (getPrev old i + 1),
            getPrev old i + 1⟩ : BestMatch) else best).bestj ∧
        diagRun s i ≤ (if best.bestsize < getPrev old i + 1 then
          (⟨i + 1 - (getPrev old i + 1), i + 1 - (getPrev old i + 1),
            getPrev old i + 1⟩ : BestMatch) else best).bestsize ∧
        ∀ r < i, diagRun s r ≤ (if best.bestsize < getPrev old i + 1 then
          (⟨i + 1 - (getPrev old i + 1), i + 1 - (getPrev old i + 1),
            getPrev old i + 1⟩ : BestMatch) else best).bestsize := by
      by_cases hup : best.bestsize < getPrev old i + 1
      · rw [if_pos hup]
        refine ⟨rfl, by dsimp only; omega, ?_⟩
        intro r hr
        have := hbest.2 r hr
        dsimp only
        omega
      · rw [if_neg hup]
        exact ⟨hbest.1, by omega, hbest.2⟩
    have hnewb : ∀ j, Function.update
        (flmInner i 0 s.length old L (fun _ => 0) best).1 i
        (getPrev old i + 1) j ≤ diagRun s i ∧
        Function.update (flmInner i 0 s.length old L (fun _ => 0) best).1 i
        (getPrev old i + 1) j ≤ diagRun s j := by
      intro j
      by_cases hji : j = i
      · subst hji
        rw [Function.update_same, hki]
        exact ⟨le_rfl, le_rfl⟩
      · rw [Function.update_noteq hji]
        exact hlow.2.1 j
    have hhigh := flmInner_diag_high s i hnp old hold H
      (Function.update (flmInner i 0 s.length old L (fun _ => 0) best).1 i
        (getPrev old i + 1))
      _
      (fun j hj => ⟨hHgt j hj,
        (hmemall j (List.mem_append_right _ (List.mem_cons_of_mem i hj))).1,
        (hmemall j (List.mem_append_right _ (List.mem_cons_of_mem i hj))).2⟩)
      hb2.1 hb2.2.1 hnewb
    refine ⟨?_, ?_⟩
    · rw [hhigh.1]
      refine ⟨hb2.1, ?_⟩
      intro r hr
      by_cases hri : r < i
      · exact hb2.2.2 r hri
      · have : r = i := by omega
        subst this
        exact hb2.2.1
    · constructor
      · intro j
        rw [diagPrev_succ]
        exact hhigh.2.1 j
      · show getPrev _ (i + 1) = diagPrev s (i + 1)
        rw [getPrev_succ, diagPrev_succ, hhigh.2.2, Function.update_same, hki]

theorem flmRows_diag (s : List String) :
    ∀ (cnt i0 : Nat) (st : (Nat → Nat) × BestMatch), i0 + cnt ≤ s.length →
    OldDiag s i0 st.1 → DiagBest s i0 st.2 →
    (flmRows s s 0 s.length (List.range' i0 cnt) st).2.besti =
      (flmRows s s 0 s.length (List.range' i0 cnt) st).2.bestj := by
  intro cnt
  induction cnt with
  | zero =>
    intro i0 st _ _ hb
    simpa [flmRows] using hb.1
  | succ cnt ih =>
    intro i0 st hcnt hold hbest
    rw [List.range'_succ]
    show (flmRows s s 0 s.length (List.range' (i0 + 1) cnt)
      (flmInner i0 0 s.length st.1 (b2j s (s.getD i0 "")) (fun _ => 0) st.2)).2.besti = _
    have hrow := flmRow_diag s i0 (by omega) st.1 hold st.2 hbest
    exact ih (i0 + 1) _ (by omega) hrow.2 hrow.1

theorem extLowerNon_self (s : List String) :
    ∀ (x z : Nat), extLowerNon s s 0 0 x x z = ⟨0, 0, z + x⟩ := by
  intro x
  induction x with
  | zero =>
    intro z
    rw [extLowerNon]
    rw [dif_neg (by intro h; exact absurd h.1 (lt_irrefl 0))]
    rfl
  | succ x ih =>
    intro z
    rw [extLowerNon]
    rw [dif_pos ⟨by omega, by omega, rfl, rfl⟩]
    rw [show x + 1 - 1 = x by omega]
    rw [ih (z + 1)]
    have e : z + 1 + x = z + (x + 1) := by omega
    rw [e]

theorem extUpperNon_self (s : List String) (n : Nat) :
    ∀ (k z : Nat), n - z ≤ k → z ≤ n → extUpperNon s s n n 0 0 z = ⟨0, 0, n⟩ := by
  intro k
  induction k with
  | zero =>
    intro z hk hz
    rw [extUpperNon]
    rw [dif_neg (by intro h; have h1 := h.1; omega)]
    have e : z = n := by omega
    rw [e]
  | succ k ih =>
    intro z hk hz
    by_cases hlt : z < n
    · rw [extUpperNon]
      rw [dif_pos ⟨by omega, by omega, rfl, rfl⟩]
      exact ih (z + 1) (by omega) (by omega)
    · rw [extUpperNon, dif_neg (by intro h; have h1 := h.1; omega)]
      have e : z = n := by omega
      rw [e]

theorem flm_self (s : List String) :
    find_longest_match s s 0 s.length 0 s.length = ⟨0, 0, s.length⟩ := by
  simp only [find_longest_match]
  have hrange : s.length - 0 = s.length := by omega
  rw [hrange]
  have hdiag := flmRows_diag s s.length 0
    ((fun _ => 0 : Nat → Nat), (⟨0, 0, 0⟩ : BestMatch)) (by omega)
    ⟨fun j => ⟨Nat.zero_le _, Nat.zero_le _⟩, by unfold getPrev diagPrev; simp⟩
    ⟨rfl, fun r hr => absurd hr (Nat.not_lt_zero r)⟩
  have hinit : MatchInv s s 0 0 0 s.length ⟨0, 0, 0⟩ := by
    refine ⟨le_rfl, ?_, le_rfl, ?_, ?_⟩
    · show 0 + 0 ≤ 0; omega
    · show 0 + 0 ≤ s.length; omega
    · intro t ht
      have hz : t < 0 := ht
      exact absurd hz (Nat.not_lt_zero t)
  have hinv := flmRows_inv s s 0 0 s.length s.length 0
    ((fun _ => 0 : Nat → Nat), (⟨0, 0, 0⟩ : BestMatch)) le_rfl (by omega)
    (by intro j hj; simp at hj) hinit
  rw [show (0 : Nat) + s.length = s.length by omega] at hinv
  have hsum : (flmRows s s 0 s.length (List.range' 0 s.length)
      ((fun _ => 0 : Nat → Nat), (⟨0, 0, 0⟩ : BestMatch))).2.besti +
      (flmRows s s 0 s.length (List.range' 0 s.length)
      ((fun _ => 0 : Nat → Nat), (⟨0, 0, 0⟩ : BestMatch))).2.bestsize ≤ s.length :=
    hinv.2.1
  rw [← hdiag]
  rw [extLowerNon_self]
  dsimp only
  rw [extUpperNon_self s s.length s.length _ (by omega) (by omega)]
  dsimp only
  rw [extLowerJunk_id]
  dsimp only
  rw [extUpperJunk_id]

theorem get_matching_blocks_self (s : List String) :
    get_matching_blocks s s =
      if s.length = 0 then [(s.length, s.length, 0)]
      else [(0, 0, s.length), (s.length, s.length, 0)] := by
  unfold get_matching_blocks
  by_cases hn : s.length = 0
  · rw [if_pos hn]
    have h1 : gmbGo s s (s.length + s.length + 1) [(0, s.length, 0, s.length)] [] = [] := by
      simp only [gmbGo]
      rw [flm_self]
      rw [if_pos hn]
      cases hf : s.length + s.length with
      | zero => rfl
      | succ f => rfl
    rw [h1]
    simp [collapseGo]
  · rw [if_neg hn]
    have h1 : gmbGo s s (s.length + s.length + 1) [(0, s.length, 0, s.length)] [] =
        [(0, 0, s.length)] := by
      simp only [gmbGo]
      rw [flm_self]
      rw [if_neg (by simpa using hn)]
      have hq1 : (if 0 < (⟨0, 0, s.length⟩ : BestMatch).besti ∧
          0 < (⟨0, 0, s.length⟩ : BestMatch).bestj then
          ((0 : Nat), (⟨0, 0, s.length⟩ : BestMatch).besti, (0 : Nat),
            (⟨0, 0, s.length⟩ : BestMatch).bestj) :: ([] : List (Nat × Nat × Nat × Nat))
          else []) = [] := by
        rw [if_neg]
        intro h
        exact absurd h.1 (lt_irrefl 0)
      have hq2 : ¬ ((⟨0, 0, s.length⟩ : BestMatch).besti +
          (⟨0, 0, s.length⟩ : BestMatch).bestsize < s.length) := by
        show ¬ (0 + s.length < s.length)
        omega
      simp only [hq2, if_false, if_neg (show ¬ ((0:Nat) < 0 ∧ (0:Nat) < 0) from
        fun h => absurd h.1 (lt_irrefl 0))]
      show gmbGo s s (s.length + s.length) [] ([] ++ [(0, 0, s.length)]) = _
      cases hf : s.length + s.length with
      | zero => rfl
      | succ f => rfl
    rw [h1]
    have h2 : List.mergeSort [(0, 0, s.length)] blockLe = [(0, 0, s.length)] := by
      simp
    show collapseGo (0, 0, 0) ([(0, 0, s.length)].mergeSort blockLe) [] ++
      [(s.length, s.length, 0)] = _
    rw [h2]
    show collapseGo (0, 0, 0 + s.length) [] [] ++ _ = _
    unfold collapseGo
    rw [if_pos (by simpa using hn)]
    simp

theorem get_opcodes_self (s : List String) :
    get_opcodes s s =
      if s.length = 0 then [] else [⟨"equal", 0, s.length, 0, s.length⟩] := by
  unfold get_opcodes
  rw [get_matching_blocks_self]
  by_cases hn : s.length = 0
  · rw [if_pos hn, if_pos hn]
    simp [hn, opcodeStep]
  · rw [if_neg hn, if_neg hn]
    simp only [List.foldl_cons, List.foldl_nil, opcodeStep]
    have e1 : ¬ ((0:Nat) < 0 ∧ (0:Nat) < 0) := fun h => absurd h.1 (lt_irrefl 0)
    rw [if_neg e1, if_neg (lt_irrefl 0), if_neg (lt_irrefl 0),
      if_neg (show ¬ (("" : String) ≠ "") by simp), if_pos hn]
    have e2 : ¬ (0 + s.length < s.length ∧ 0 + s.length < s.length) := by omega
    rw [if_neg e2, if_neg (show ¬ (0 + s.length < s.length) by omega),
      if_neg (show ¬ (0 + s.length < s.length) by omega),
      if_neg (show ¬ (("" : String) ≠ "") by simp),
      if_neg (show ¬ ((0 : Nat) ≠ 0) by simp)]
    simp

/-- Claim C5: when the two preprocessed line sequences are identical, the
main loop appends no diff rows, so the output after the optional header
row is empty. -/
theorem claim_c5 (colors : Colors) (color underline : Bool)
    (fixed_width : Nat) (lines : List String) :
    diff_rows colors color underline fixed_width lines lines = [] := by
  unfold diff_rows
  rw [get_opcodes_self]
  by_cases hn : lines.length = 0
  · rw [if_pos hn]
    rfl
  · rw [if_neg hn]
    simp

/-! ## Block properties through get_matching_blocks (toward C6 and C8) -/

/-- Bounds and elementwise match of a block (i, j, k): the k elements
from i in a equal the k elements from j in b. -/
def BlockMatch (a b : List String) : Nat × Nat × Nat → Prop
  | (i, j, k) => i + k ≤ a.length ∧ j + k ≤ b.length ∧
      ∀ t < k, a.getD (i + t) "" = b.getD (j + t) ""

/-- Validity of a queue rectangle (alo, ahi, blo, bhi). -/
def RectOk (a b : List String) : Nat × Nat × Nat × Nat → Prop
  | (alo, ahi, blo, bhi) => alo ≤ ahi ∧ ahi ≤ a.length ∧ blo ≤ bhi ∧ bhi ≤ b.length

theorem gmbGo_blockMatch (a b : List String) :
    ∀ (fuel : Nat) (queue : List (Nat × Nat × Nat × Nat))
      (acc : List (Nat × Nat × Nat)),
    (∀ r ∈ queue, RectOk a b r) →
    (∀ bl ∈ acc, BlockMatch a b bl) →
    ∀ bl ∈ gmbGo a b fuel queue acc, BlockMatch a b bl := by
  intro fuel
  induction fuel with
  | zero =>
    intro queue acc _ hacc bl hbl
    exact hacc bl (by simpa [gmbGo] using hbl)
  | succ fuel ih =>
    intro queue acc hq hacc bl hbl
    match queue with
    | [] => exact hacc bl (by simpa [gmbGo] using hbl)
    | (alo, ahi, blo, bhi) :: rest =>
      obtain ⟨hr1, hr2, hr3, hr4⟩ := hq (alo, ahi, blo, bhi) (by simp)
      have hminv := find_longest_match_inv a b alo ahi blo bhi hr1 hr2 hr3 hr4
      obtain ⟨hm1, hm2, hm3, hm4, hm5⟩ := hminv
      simp only [gmbGo] at hbl
      by_cases hz : (find_longest_match a b alo ahi blo bhi).bestsize = 0
      · rw [if_pos hz] at hbl
        exact ih rest acc (fun r hr => hq r (List.mem_cons_of_mem _ hr)) hacc bl hbl
      · rw [if_neg hz] at hbl
        refine ih _ _ ?_ ?_ bl hbl
        · intro r hr
          by_cases hc2 : (find_longest_match a b alo ahi blo bhi).besti +
              (find_longest_match a b alo ahi blo bhi).bestsize < ahi ∧
              (find_longest_match a b alo ahi blo bhi).bestj +
              (find_longest_match a b alo ahi blo bhi).bestsize < bhi
          · rw [if_pos (by simpa using hc2)] at hr
            rcases List.mem_cons.mp hr with h1 | hr
            · subst h1
              exact ⟨by omega, by omega, by omega, by omega⟩
            · by_cases hc1 : alo < (find_longest_match a b alo ahi blo bhi).besti ∧
                  blo < (find_longest_match a b alo ahi blo bhi).bestj
              · rw [if_pos (by simpa using hc1)] at hr
                rcases List.mem_cons.mp hr with h1 | hr
                · subst h1
                  exact ⟨by omega, by omega, by omega, by omega⟩
                · exact hq r (List.mem_cons_of_mem _ hr)
              · rw [if_neg (by simpa using hc1)] at hr
                exact hq r (List.mem_cons_of_mem _ hr)
          · rw [if_neg (by simpa using hc2)] at hr
            by_cases hc1 : alo < (find_longest_match a b alo ahi blo bhi).besti ∧
                blo < (find_longest_match a b alo ahi blo bhi).bestj
            · rw [if_pos (by simpa using hc1)] at hr
              rcases List.mem_cons.mp hr with h1 | hr
              · subst h1
                exact ⟨by omega, by omega, by omega, by omega⟩
              · exact hq r (List.mem_cons_of_mem _ hr)
            · rw [if_neg (by simpa using hc1)] at hr
              exact hq r (List.mem_cons_of_mem _ hr)
        · intro bl' hbl'
          rcases List.mem_append.mp hbl' with h1 | h1
          · exact hacc bl' h1
          · have : bl' = ((find_longest_match a b alo ahi blo bhi).besti,
                (find_longest_match a b alo ahi blo bhi).bestj,
                (find_longest_match a b alo ahi blo bhi).bestsize) := by
              simpa using h1
            subst this
            exact ⟨by omega, by omega, fun t ht => hm5 t ht⟩

theorem collapseGo_nil (cur : Nat × Nat × Nat) (out : List (Nat × Nat × Nat)) :
    collapseGo cur [] out = if cur.2.2 ≠ 0 then out ++ [cur] else out := rfl

theorem collapseGo_cons (i1 j1 k1 i2 j2 k2 : Nat)
    (rest out : List (Nat × Nat × Nat)) :
    collapseGo (i1, j1, k1) ((i2, j2, k2) :: rest) out =
      if i1 + k1 = i2 ∧ j1 + k1 = j2 then collapseGo (i1, j1, k1 + k2) rest out
      else if k1 ≠ 0 then collapseGo (i2, j2, k2) rest (out ++ [(i1, j1, k1)])
      else collapseGo (i2, j2, k2) rest out := rfl

theorem collapseGo_blockMatch (a b : List String) :
    ∀ (l : List (Nat × Nat × Nat)) (cur : Nat × Nat × Nat)
      (out : List (Nat × Nat × Nat)),
    (∀ bl ∈ l, BlockMatch a b bl) → BlockMatch a b cur →
    (∀ bl ∈ out, BlockMatch a b bl) →
    ∀ bl ∈ collapseGo cur l out, BlockMatch a b bl := by
  intro l
  induction l with
  | nil =>
    intro cur out _ hcur hout bl hbl
    rw [collapseGo_nil] at hbl
    by_cases hk : cur.2.2 ≠ 0
    · rw [if_pos hk] at hbl
      rcases List.mem_append.mp hbl with h1 | h1
      · exact hout bl h1
      · rw [show bl = cur by simpa using h1]
        exact hcur
    · rw [if_neg hk] at hbl
      exact hout bl hbl
  | cons nxt l ih =>
    intro cur out hl hcur hout bl hbl
    obtain ⟨i1, j1, k1⟩ := cur
    obtain ⟨i2, j2, k2⟩ := nxt
    have hnxt := hl (i2, j2, k2) (by simp)
    rw [collapseGo_cons] at hbl
    by_cases hadj : i1 + k1 = i2 ∧ j1 + k1 = j2
    · rw [if_pos hadj] at hbl
      refine ih (i1, j1, k1 + k2) out
        (fun x hx => hl x (List.mem_cons_of_mem _ hx)) ?_ hout bl hbl
      obtain ⟨c1, c2, c3⟩ := hcur
      obtain ⟨n1, n2, n3⟩ := hnxt
      refine ⟨by omega, by omega, ?_⟩
      intro t ht
      by_cases htk : t < k1
      · exact c3 t htk
      · have e1 : i1 + t = i2 + (t - k1) := by
          have := hadj.1; omega
        have e2 : j1 + t = j2 + (t - k1) := by
          have := hadj.2; omega
        rw [e1, e2]
        exact n3 (t - k1) (by omega)
    · rw [if_neg hadj] at hbl
      by_cases hk : k1 ≠ 0
      · rw [if_pos hk] at hbl
        refine ih (i2, j2, k2) _ (fun x hx => hl x (List.mem_cons_of_mem _ hx))
          hnxt ?_ bl hbl
        intro x hx
        rcases List.mem_append.mp hx with h1 | h1
        · exact hout x h1
        · rw [show x = (i1, j1, k1) by simpa using h1]
          exact hcur
      · rw [if_neg hk] at hbl
        exact ih (i2, j2, k2) out (fun x hx => hl x (List.mem_cons_of_mem _ hx))
          hnxt hout bl hbl

theorem get_matching_blocks_match (a b : List String) :
    ∀ bl ∈ get_matching_blocks a b, BlockMatch a b bl := by
  intro bl hbl
  unfold get_matching_blocks at hbl
  rcases List.mem_append.mp hbl with h1 | h1
  · have hperm := List.mergeSort_perm
      (gmbGo a b (a.length + b.length + 1) [(0, a.length, 0, b.length)] []) blockLe
    have hgo := gmbGo_blockMatch a b (a.length + b.length + 1)
      [(0, a.length, 0, b.length)] []
      (by
        intro r hr
        rw [show r = (0, a.length, 0, b.length) by simpa using hr]
        exact ⟨Nat.zero_le _, le_rfl, Nat.zero_le _, le_rfl⟩)
      (by intro x hx; simp at hx)
    refine collapseGo_blockMatch a b _ (0, 0, 0) [] ?_ ?_ ?_ bl h1
    · intro x hx
      exact hgo x (hperm.mem_iff.mp hx)
    · exact ⟨by simp, by simp, by intro t ht; simp at ht⟩
    · intro x hx; simp at hx
  · rw [show bl = (a.length, b.length, 0) by simpa using h1]
    refine ⟨by simp, by simp, ?_⟩
    intro t ht
    simp at ht

/-! ## Claim C6: equal opcodes copy identical token runs -/

theorem pySlice_eq_of_match (a b : List String) (i1 j1 k : Nat)
    (hia : i1 + k ≤ a.length) (hjb : j1 + k ≤ b.length)
    (hm : ∀ t < k, a.getD (i1 + t) "" = b.getD (j1 + t) "") :
    pySlice a i1 (i1 + k) = pySlice b j1 (j1 + k) := by
  unfold pySlice
  rw [show i1 + k - i1 = k by omega, show j1 + k - j1 = k by omega]
  apply List.ext_getElem
  · rw [List.length_take, List.length_take, List.length_drop, List.length_drop]
    omega
  · intro n h1 h2
    rw [List.getElem_take, List.getElem_drop, List.getElem_take,
      List.getElem_drop]
    have hn : n < k := by
      rw [List.length_take, List.length_drop] at h1
      omega
    have := hm n hn
    rw [List.getD_eq_getElem a "" (by omega), List.getD_eq_getElem b "" (by omega)] at this
    exact this

/-- What claim C6 asserts of an opcode: if it is tagged equal, its two
ranges have the same length and select textually identical token runs. -/
def EqualOpOk (a b : List String) (op : Opcode) : Prop :=
  op.tag = "equal" →
    op.i2 - op.i1 = op.j2 - op.j1 ∧
    pySlice a op.i1 op.i2 = pySlice b op.j1 op.j2

theorem opcodeStep_equal (a b : List String) (st : Nat × Nat × List Opcode)
    (blk : Nat × Nat × Nat) (hbl : BlockMatch a b blk)
    (hacc : ∀ op ∈ st.2.2, EqualOpOk a b op) :
    ∀ op ∈ (opcodeStep st blk).2.2, EqualOpOk a b op := by
  obtain ⟨i, j, acc⟩ := st
  obtain ⟨ai, bj, size⟩ := blk
  obtain ⟨hb1, hb2, hb3⟩ := hbl
  intro op hop
  simp only [opcodeStep] at hop
  have htag : ∀ t : String, t = "replace" ∨ t = "delete" ∨ t = "insert" →
      EqualOpOk a b ⟨t, i, ai, j, bj⟩ := by
    intro t ht
    intro he
    simp only at he
    rcases ht with h | h | h <;> rw [h] at he <;> exact absurd he (by decide)
  have hacc2 : ∀ x ∈ (if (if i < ai ∧ j < bj then "replace"
      else if i < ai then "delete" else if j < bj then "insert" else "") ≠ "" then
      acc ++ [⟨if i < ai ∧ j < bj then "replace"
        else if i < ai then "delete" else if j < bj then "insert" else "",
        i, ai, j, bj⟩] else acc), EqualOpOk a b x := by
    by_cases hne : (if i < ai ∧ j < bj then "replace"
        else if i < ai then "delete" else if j < bj then "insert" else "") ≠ ""
    · rw [if_pos hne]
      intro x hx
      rcases List.mem_append.mp hx with h1 | h1
      · exact hacc x h1
      · rw [show x = ⟨if i < ai ∧ j < bj then "replace"
            else if i < ai then "delete" else if j < bj then "insert" else "",
            i, ai, j, bj⟩ by simpa using h1]
        refine htag _ ?_
        by_cases c1 : i < ai ∧ j < bj
        · rw [if_pos c1]; left; rfl
        · rw [if_neg c1]
          by_cases c2 : i < ai
          · rw [if_pos c2]; right; left; rfl
          · rw [if_neg c2]
            by_cases c3 : j < bj
            · rw [if_pos c3]; right; right; rfl
            · exfalso
              rw [if_neg c1, if_neg c2, if_neg c3] at hne
              exact hne rfl
    · rw [if_neg hne]
      exact hacc
  by_cases hs : size ≠ 0
  · rw [if_pos hs] at hop
    rcases List.mem_append.mp hop with h1 | h1
    · exact hacc2 op h1
    · rw [show op = ⟨"equal", ai, ai + size, bj, bj + size⟩ by simpa using h1]
      intro _
      constructor
      · simp only
        omega
      · simp only
        exact pySlice_eq_of_match a b ai bj size hb1 hb2 hb3
  · rw [if_neg hs] at hop
    exact hacc2 op hop

theorem get_opcodes_equal (a b : List String) :
    ∀ op ∈ get_opcodes a b, EqualOpOk a b op := by
  have main : ∀ (blocks : List (Nat × Nat × Nat)) (st : Nat × Nat × List Opcode),
      (∀ bl ∈ blocks, BlockMatch a b bl) →
      (∀ op ∈ st.2.2, EqualOpOk a b op) →
      ∀ op ∈ (blocks.foldl opcodeStep st).2.2, EqualOpOk a b op := by
    intro blocks
    induction blocks with
    | nil => intro st _ hacc; exact hacc
    | cons blk blocks ih =>
      intro st hbl hacc
      rw [List.foldl_cons]
      exact ih (opcodeStep st blk)
        (fun x hx => hbl x (List.mem_cons_of_mem _ hx))
        (opcodeStep_equal a b st blk (hbl blk (by simp)) hacc)
  unfold get_opcodes
  exact main (get_matching_blocks a b) (0, 0, [])
    (get_matching_blocks_match a b) (by intro x hx; simp at hx)

/-- Claim C6: in the word classifier, for every opcode tagged equal the
two ranges have the same length and select textually identical words, so
the equal branch of word_diff (which extends both outputs with exactly
these verbatim, unstyled slices) emits equally many, pairwise identical
tokens on both sides. -/
theorem claim_c6 (orig_line modified_line : String) :
    ∀ op ∈ get_opcodes (pySplit orig_line) (pySplit modified_line),
      op.tag = "equal" →
      op.i2 - op.i1 = op.j2 - op.j1 ∧
      pySlice (pySplit orig_line) op.i1 op.i2 =
        pySlice (pySplit modified_line) op.j1 op.j2 := by
  intro op hop
  exact get_opcodes_equal (pySplit orig_line) (pySplit modified_line) op hop

theorem claim_c6_witness :
    (⟨"equal", 0, 2, 0, 2⟩ : Opcode) ∈
      get_opcodes (pySplit "a b") (pySplit "a b") ∧
    ((⟨"equal", 0, 2, 0, 2⟩ : Opcode).tag = "equal" ∧
      (2 : Nat) - 0 = 2 - 0 ∧
      pySlice (pySplit "a b") 0 2 = pySlice (pySplit "a b") 0 2) := by
  have hmem : (⟨"equal", 0, 2, 0, 2⟩ : Opcode) ∈
      get_opcodes (pySplit "a b") (pySplit "a b") := by
    rw [get_opcodes_self]
    rw [show (pySplit "a b").length = 2 from rfl]
    simp
  have h := claim_c6 "a b" "a b" ⟨"equal", 0, 2, 0, 2⟩ hmem rfl
  exact ⟨hmem, rfl, h.1, h.2⟩

/-! ## Claim C8: opcode ranges are ordered, contiguous and non-overlapping,
and the referenced slices reconstruct both input sequences.

The development first shows that the blocks produced by the queue
recursion are pairwise separated (one lies strictly before the other in
both coordinates), because each emitted block lies inside the rectangle
just popped while every other queue rectangle and every previously
emitted block lies entirely on one side of that rectangle.  Sorting then
turns separation into a chain, collapsing preserves the chain, and the
get_opcodes fold over a chained block list yields contiguous opcodes that
tile both index ranges exactly. -/

/-- Block b1 ends (in both coordinates) no later than block b2 starts. -/
def BlockBefore : Nat × Nat × Nat → Nat × Nat × Nat → Prop
  | (i1, j1, k1), (i2, j2, _) => i1 + k1 ≤ i2 ∧ j1 + k1 ≤ j2

/-- Two blocks are separated: one lies before the other in both
coordinates. -/
def SepBB (x y : Nat × Nat × Nat) : Prop := BlockBefore x y ∨ BlockBefore y x

/-- A block lies entirely outside a rectangle: fully before it or fully
after it in both coordinates. -/
def SepRB : Nat × Nat × Nat × Nat → Nat × Nat × Nat → Prop
  | (alo, ahi, blo, bhi), (i, j, k) =>
      (i + k ≤ alo ∧ j + k ≤ blo) ∨ (ahi ≤ i ∧ bhi ≤ j)

/-- Two rectangles are separated: one lies before the other in both
coordinates. -/
def SepRR : Nat × Nat × Nat × Nat → Nat × Nat × Nat × Nat → Prop
  | (alo1, ahi1, blo1, bhi1), (alo2, ahi2, blo2, bhi2) =>
      (ahi1 ≤ alo2 ∧ bhi1 ≤ blo2) ∨ (ahi2 ≤ alo1 ∧ bhi2 ≤ blo1)

theorem sepRB_sub {alo ahi blo bhi alo2 ahi2 blo2 bhi2 : Nat}
    {bl : Nat × Nat × Nat} (h : SepRB (alo, ahi, blo, bhi) bl)
    (h1 : alo ≤ alo2) (h2 : ahi2 ≤ ahi) (h3 : blo ≤ blo2) (h4 : bhi2 ≤ bhi) :
    SepRB (alo2, ahi2, blo2, bhi2) bl := by
  obtain ⟨i, j, k⟩ := bl
  rcases h with ⟨p, q⟩ | ⟨p, q⟩
  · exact Or.inl ⟨by omega, by omega⟩
  · exact Or.inr ⟨by omega, by omega⟩

theorem sepRR_sub {alo ahi blo bhi alo2 ahi2 blo2 bhi2 : Nat}
    {r : Nat × Nat × Nat × Nat} (h : SepRR (alo, ahi, blo, bhi) r)
    (h1 : alo ≤ alo2) (h2 : ahi2 ≤ ahi) (h3 : blo ≤ blo2) (h4 : bhi2 ≤ bhi) :
    SepRR (alo2, ahi2, blo2, bhi2) r := by
  obtain ⟨a1, a2, b1, b2⟩ := r
  rcases h with ⟨p, q⟩ | ⟨p, q⟩
  · exact Or.inl ⟨by omega, by omega⟩
  · exact Or.inr ⟨by omega, by omega⟩

theorem sepBB_of_rect {alo ahi blo bhi i j k : Nat} {bl : Nat × Nat × Nat}
    (hsep : SepRB (alo, ahi, blo, bhi) bl)
    (h1 : alo ≤ i) (h2 : i + k ≤ ahi) (h3 : blo ≤ j) (h4 : j + k ≤ bhi) :
    SepBB bl (i, j, k) := by
  obtain ⟨x, y, z⟩ := bl
  rcases hsep with ⟨p, q⟩ | ⟨p, q⟩
  · exact Or.inl ⟨by omega, by omega⟩
  · exact Or.inr ⟨by omega, by omega⟩

theorem sepRB_of_sepRR {alo ahi blo bhi i j k : Nat}
    {r : Nat × Nat × Nat × Nat}
    (hsep : SepRR (alo, ahi, blo, bhi) r)
    (h1 : alo ≤ i) (h2 : i + k ≤ ahi) (h3 : blo ≤ j) (h4 : j + k ≤ bhi) :
    SepRB r (i, j, k) := by
  obtain ⟨a1, a2, b1, b2⟩ := r
  rcases hsep with ⟨p, q⟩ | ⟨p, q⟩
  · exact Or.inl ⟨by omega, by omega⟩
  · exact Or.inr ⟨by omega, by omega⟩

/-- One productive step of the queue loop preserves the separation
invariants: the two child rectangles and the remaining queue stay
pairwise separated, every queue rectangle is separated from every
emitted block (including the block just emitted), and the emitted
blocks stay pairwise separated with positive sizes. -/
theorem gmbGo_step_inv (a b : List String) (alo ahi blo bhi i j k : Nat)
    (rest : List (Nat × Nat × Nat × Nat)) (acc : List (Nat × Nat × Nat))
    (hrect : RectOk a b (alo, ahi, blo, bhi))
    (hrest_rect : ∀ r ∈ rest, RectOk a b r)
    (hrest_pw : rest.Pairwise SepRR)
    (hrest_sep : ∀ r ∈ rest, SepRR (alo, ahi, blo, bhi) r)
    (hhead_acc : ∀ bl ∈ acc, SepRB (alo, ahi, blo, bhi) bl)
    (hrest_acc : ∀ r ∈ rest, ∀ bl ∈ acc, SepRB r bl)
    (haa : acc.Pairwise SepBB)
    (hak : ∀ bl ∈ acc, 0 < bl.2.2)
    (hm1 : alo ≤ i) (hm2 : i + k ≤ ahi) (hm3 : blo ≤ j) (hm4 : j + k ≤ bhi)
    (hk : k ≠ 0) :
    ∀ q2, q2 = (if i + k < ahi && j + k < bhi then
        (i + k, ahi, j + k, bhi) ::
          (if alo < i && blo < j then (alo, i, blo, j) :: rest else rest)
      else (if alo < i && blo < j then (alo, i, blo, j) :: rest else rest)) →
    (∀ r ∈ q2, RectOk a b r) ∧ q2.Pairwise SepRR ∧
      (∀ r ∈ q2, ∀ bl ∈ acc ++ [(i, j, k)], SepRB r bl) ∧
      (acc ++ [(i, j, k)]).Pairwise SepBB ∧
      (∀ bl ∈ acc ++ [(i, j, k)], 0 < bl.2.2) := by
  obtain ⟨hq1, hq2, hq3, hq4⟩ := hrect
  have hB_acc : ∀ bl ∈ acc, SepBB bl (i, j, k) :=
    fun bl hbl => sepBB_of_rect (hhead_acc bl hbl) hm1 hm2 hm3 hm4
  have hAA2 : (acc ++ [(i, j, k)]).Pairwise SepBB := by
    rw [List.pairwise_append]
    refine ⟨haa, List.pairwise_singleton _ _, ?_⟩
    intro x hx y hy
    rw [show y = (i, j, k) by simpa using hy]
    exact hB_acc x hx
  have hK2 : ∀ bl ∈ acc ++ [(i, j, k)], 0 < bl.2.2 := by
    intro bl hbl
    rcases List.mem_append.mp hbl with h | h
    · exact hak bl h
    · rw [show bl = (i, j, k) by simpa using h]
      exact Nat.pos_of_ne_zero hk
  have hL_rect : RectOk a b (alo, i, blo, j) := ⟨hm1, by omega, hm3, by omega⟩
  have hR_rect : RectOk a b (i + k, ahi, j + k, bhi) := ⟨hm2, hq2, hm4, hq4⟩
  have hL_B : SepRB (alo, i, blo, j) (i, j, k) := Or.inr ⟨le_rfl, le_rfl⟩
  have hR_B : SepRB (i + k, ahi, j + k, bhi) (i, j, k) :=
    Or.inl ⟨le_rfl, le_rfl⟩
  have hL_acc : ∀ bl ∈ acc, SepRB (alo, i, blo, j) bl :=
    fun bl hbl => sepRB_sub (hhead_acc bl hbl) le_rfl (by omega) le_rfl (by omega)
  have hR_acc : ∀ bl ∈ acc, SepRB (i + k, ahi, j + k, bhi) bl :=
    fun bl hbl => sepRB_sub (hhead_acc bl hbl) (by omega) le_rfl (by omega) le_rfl
  have hL_rest : ∀ r ∈ rest, SepRR (alo, i, blo, j) r :=
    fun r hr => sepRR_sub (hrest_sep r hr) le_rfl (by omega) le_rfl (by omega)
  have hR_rest : ∀ r ∈ rest, SepRR (i + k, ahi, j + k, bhi) r :=
    fun r hr => sepRR_sub (hrest_sep r hr) (by omega) le_rfl (by omega) le_rfl
  have hRL : SepRR (i + k, ahi, j + k, bhi) (alo, i, blo, j) :=
    Or.inr ⟨by omega, by omega⟩
  have hrest_B : ∀ r ∈ rest, SepRB r (i, j, k) :=
    fun r hr => sepRB_of_sepRR (hrest_sep r hr) hm1 hm2 hm3 hm4
  have combine : ∀ (r : Nat × Nat × Nat × Nat), (∀ bl ∈ acc, SepRB r bl) →
      SepRB r (i, j, k) → ∀ bl ∈ acc ++ [(i, j, k)], SepRB r bl := by
    intro r h1 h2 bl hbl
    rcases List.mem_append.mp hbl with h | h
    · exact h1 bl h
    · rw [show bl = (i, j, k) by simpa using h]
      exact h2
  intro q hq
  subst hq
  by_cases c2 : i + k < ahi ∧ j + k < bhi
  · rw [if_pos (by simpa using c2)]
    by_cases c1 : alo < i ∧ blo < j
    · rw [if_pos (by simpa using c1)]
      refine ⟨?_, ?_, ?_, hAA2, hK2⟩
      · intro r hr
        rcases List.mem_cons.mp hr with h | hr
        · rw [h]; exact hR_rect
        rcases List.mem_cons.mp hr with h | hr
        · rw [h]; exact hL_rect
        · exact hrest_rect r hr
      · refine List.Pairwise.cons ?_ (List.Pairwise.cons hL_rest hrest_pw)
        intro r hr
        rcases List.mem_cons.mp hr with h | hr
        · rw [h]; exact hRL
        · exact hR_rest r hr
      · intro r hr
        rcases List.mem_cons.mp hr with h | hr
        · rw [h]; exact combine _ hR_acc hR_B
        rcases List.mem_cons.mp hr with h | hr
        · rw [h]; exact combine _ hL_acc hL_B
        · exact combine r (hrest_acc r hr) (hrest_B r hr)
    · rw [if_neg (by simpa using c1)]
      refine ⟨?_, List.Pairwise.cons hR_rest hrest_pw, ?_, hAA2, hK2⟩
      · intro r hr
        rcases List.mem_cons.mp hr with h | hr
        · rw [h]; exact hR_rect
        · exact hrest_rect r hr
      · intro r hr
        rcases List.mem_cons.mp hr with h | hr
        · rw [h]; exact combine _ hR_acc hR_B
        · exact combine r (hrest_acc r hr) (hrest_B r hr)
  · rw [if_neg (by simpa using c2)]
    by_cases c1 : alo < i ∧ blo < j
    · rw [if_pos (by simpa using c1)]
      refine ⟨?_, List.Pairwise.cons hL_rest hrest_pw, ?_, hAA2, hK2⟩
      · intro r hr
        rcases List.mem_cons.mp hr with h | hr
        · rw [h]; exact hL_rect
        · exact hrest_rect r hr
      · intro r hr
        rcases List.mem_cons.mp hr with h | hr
        · rw [h]; exact combine _ hL_acc hL_B
        · exact combine r (hrest_acc r hr) (hrest_B r hr)
    · rw [if_neg (by simpa using c1)]
      exact ⟨hrest_rect, hrest_pw,
        fun r hr => combine r (hrest_acc r hr) (hrest_B r hr), hAA2, hK2⟩

/-- The queue loop emits pairwise separated blocks of positive size, for
every fuel value. -/
theorem gmbGo_sep (a b : List String) :
    ∀ (fuel : Nat) (queue : List (Nat × Nat × Nat × Nat))
      (acc : List (Nat × Nat × Nat)),
    (∀ r ∈ queue, RectOk a b r) →
    queue.Pairwise SepRR →
    (∀ r ∈ queue, ∀ bl ∈ acc, SepRB r bl) →
    acc.Pairwise SepBB →
    (∀ bl ∈ acc, 0 < bl.2.2) →
    (gmbGo a b fuel queue acc).Pairwise SepBB ∧
      ∀ bl ∈ gmbGo a b fuel queue acc, 0 < bl.2.2 := by
  intro fuel
  induction fuel with
  | zero =>
    intro queue acc _ _ _ haa hak
    exact ⟨by simpa [gmbGo] using haa,
      fun bl hbl => hak bl (by simpa [gmbGo] using hbl)⟩
  | succ fuel ih =>
    intro queue acc hq hqq hqa haa hak
    match queue with
    | [] =>
      exact ⟨by simpa [gmbGo] using haa,
        fun bl hbl => hak bl (by simpa [gmbGo] using hbl)⟩
    | (alo, ahi, blo, bhi) :: rest =>
      have hrect := hq (alo, ahi, blo, bhi) (by simp)
      obtain ⟨hr1, hr2, hr3, hr4⟩ := hrect
      obtain ⟨hm1, hm2, hm3, hm4, -⟩ :=
        find_longest_match_inv a b alo ahi blo bhi hr1 hr2 hr3 hr4
      have hrest_rect : ∀ r ∈ rest, RectOk a b r :=
        fun r hr => hq r (List.mem_cons_of_mem _ hr)
      have hrest_sep : ∀ r ∈ rest, SepRR (alo, ahi, blo, bhi) r :=
        (List.pairwise_cons.mp hqq).1
      have hrest_pw : rest.Pairwise SepRR := (List.pairwise_cons.mp hqq).2
      have hhead_acc : ∀ bl ∈ acc, SepRB (alo, ahi, blo, bhi) bl :=
        hqa (alo, ahi, blo, bhi) (by simp)
      have hrest_acc : ∀ r ∈ rest, ∀ bl ∈ acc, SepRB r bl :=
        fun r hr => hqa r (List.mem_cons_of_mem _ hr)
      simp only [gmbGo]
      by_cases hz : (find_longest_match a b alo ahi blo bhi).bestsize = 0
      · rw [if_pos hz]
        exact ih rest acc hrest_rect hrest_pw hrest_acc haa hak
      · rw [if_neg hz]
        obtain ⟨hQr, hQQ, hQA, hAA2, hK2⟩ :=
          gmbGo_step_inv a b alo ahi blo bhi
            (find_longest_match a b alo ahi blo bhi).besti
            (find_longest_match a b alo ahi blo bhi).bestj
            (find_longest_match a b alo ahi blo bhi).bestsize
            rest acc ⟨hr1, hr2, hr3, hr4⟩ hrest_rect hrest_pw hrest_sep
            hhead_acc hrest_acc haa hak hm1 hm2 hm3 hm4 hz _ rfl
        exact ih _ _ hQr hQQ hQA hAA2 hK2

theorem blockLe_trans :
    ∀ x y z : Nat × Nat × Nat,
      blockLe x y = true → blockLe y z = true → blockLe x z = true := by
  intro x y z hxy hyz
  obtain ⟨x1, x2, x3⟩ := x
  obtain ⟨y1, y2, y3⟩ := y
  obtain ⟨z1, z2, z3⟩ := z
  simp only [blockLe, Bool.or_eq_true, Bool.and_eq_true,
    decide_eq_true_eq] at hxy hyz ⊢
  omega

theorem blockLe_total :
    ∀ x y : Nat × Nat × Nat, (blockLe x y || blockLe y x) = true := by
  intro x y
  obtain ⟨x1, x2, x3⟩ := x
  obtain ⟨y1, y2, y3⟩ := y
  simp only [blockLe, Bool.or_eq_true, Bool.and_eq_true, decide_eq_true_eq]
  omega

/-- Separated blocks of positive size, listed in sorted order, form a
before-chain. -/
theorem pairwise_before_of_sorted :
    ∀ l : List (Nat × Nat × Nat),
    l.Pairwise (fun x y => blockLe x y = true) →
    l.Pairwise SepBB →
    (∀ bl ∈ l, 0 < bl.2.2) →
    l.Pairwise BlockBefore := by
  intro l hle hsep hpos
  refine (hle.and hsep).imp_of_mem ?_
  intro x y hx hy hxy
  obtain ⟨hxyle, hxysep⟩ := hxy
  obtain ⟨x1, y1, k1⟩ := x
  obtain ⟨x2, y2, k2⟩ := y
  have hk2 : 0 < k2 := hpos _ hy
  rcases hxysep with hB | hB
  · exact hB
  · exfalso
    obtain ⟨hb1, hb2⟩ := hB
    simp only [blockLe, Bool.or_eq_true, Bool.and_eq_true,
      decide_eq_true_eq] at hxyle
    omega

/-- Both ends of a block are within the sequence lengths. -/
def blockBounds (la lb : Nat) : Nat × Nat × Nat → Prop
  | (x, y, k) => x + k ≤ la ∧ y + k ≤ lb

/-- Chain of blocks: starting from position (i, j), each block begins at
or after the current position and advances it to its end; the final
position is at most (iE, jE). -/
def blocksChainBnd : Nat → Nat → Nat → Nat → List (Nat × Nat × Nat) → Prop
  | i, j, iE, jE, [] => i ≤ iE ∧ j ≤ jE
  | i, j, iE, jE, (x, y, k) :: rest =>
      i ≤ x ∧ j ≤ y ∧ blocksChainBnd (x + k) (y + k) iE jE rest

theorem blocksChainBnd_mono :
    ∀ (l : List (Nat × Nat × Nat)) (i j iE jE iE2 jE2 : Nat),
    blocksChainBnd i j iE jE l → iE ≤ iE2 → jE ≤ jE2 →
    blocksChainBnd i j iE2 jE2 l := by
  intro l
  induction l with
  | nil =>
    intro i j iE jE iE2 jE2 h h1 h2
    obtain ⟨p, q⟩ := h
    exact ⟨by omega, by omega⟩
  | cons bl rest ih =>
    intro i j iE jE iE2 jE2 h h1 h2
    obtain ⟨x, y, k⟩ := bl
    obtain ⟨p, q, hrest⟩ := h
    exact ⟨p, q, ih (x + k) (y + k) iE jE iE2 jE2 hrest h1 h2⟩

theorem blocksChainBnd_start_mono :
    ∀ (l : List (Nat × Nat × Nat)) (i j m n iE jE : Nat),
    blocksChainBnd m n iE jE l → i ≤ m → j ≤ n →
    blocksChainBnd i j iE jE l := by
  intro l i j m n iE jE h h1 h2
  match l with
  | [] =>
    obtain ⟨p, q⟩ := h
    exact ⟨by omega, by omega⟩
  | (x, y, k) :: rest =>
    obtain ⟨p, q, hrest⟩ := h
    exact ⟨by omega, by omega, hrest⟩

theorem blocksChainBnd_append :
    ∀ (l1 l2 : List (Nat × Nat × Nat)) (i j m n iE jE : Nat),
    blocksChainBnd i j m n l1 → blocksChainBnd m n iE jE l2 →
    blocksChainBnd i j iE jE (l1 ++ l2) := by
  intro l1
  induction l1 with
  | nil =>
    intro l2 i j m n iE jE h1 h2
    rw [List.nil_append]
    obtain ⟨p, q⟩ := h1
    exact blocksChainBnd_start_mono l2 i j m n iE jE h2 p q
  | cons bl rest ih =>
    intro l2 i j m n iE jE h1 h2
    obtain ⟨x, y, k⟩ := bl
    rw [List.cons_append]
    obtain ⟨p, q, hrest⟩ := h1
    exact ⟨p, q, ih l2 (x + k) (y + k) m n iE jE hrest h2⟩

/-- Head-start condition for building a chain. -/
def chainStartOk (i j : Nat) : List (Nat × Nat × Nat) → Prop
  | [] => True
  | (x, y, _) :: _ => i ≤ x ∧ j ≤ y

theorem chainBnd_of_pairwise (la lb : Nat) :
    ∀ (l : List (Nat × Nat × Nat)) (i j : Nat),
    l.Pairwise BlockBefore →
    (∀ bl ∈ l, blockBounds la lb bl) →
    i ≤ la → j ≤ lb → chainStartOk i j l →
    blocksChainBnd i j la lb l := by
  intro l
  induction l with
  | nil =>
    intro i j _ _ h1 h2 _
    exact ⟨h1, h2⟩
  | cons bl rest ih =>
    intro i j hpw hbd h1 h2 hs
    obtain ⟨x, y, k⟩ := bl
    obtain ⟨hsx, hsy⟩ := hs
    have hbx : x + k ≤ la ∧ y + k ≤ lb := hbd (x, y, k) (by simp)
    have hnext : chainStartOk (x + k) (y + k) rest := by
      cases rest with
      | nil => trivial
      | cons bl2 rest2 =>
        obtain ⟨x2, y2, k2⟩ := bl2
        have hbf : x + k ≤ x2 ∧ y + k ≤ y2 :=
          (List.pairwise_cons.mp hpw).1 (x2, y2, k2) (by simp)
        exact ⟨hbf.1, hbf.2⟩
    exact ⟨hsx, hsy, ih (x + k) (y + k) (List.pairwise_cons.mp hpw).2
      (fun bl2 h => hbd bl2 (List.mem_cons_of_mem _ h)) hbx.1 hbx.2 hnext⟩

/-- Collapsing adjacent blocks preserves the chain: if the pending block
ends before the incoming chain and the output so far chains up to the
pending block's start, the final output is a chain. -/
theorem collapseGo_chainBnd (la lb : Nat) :
    ∀ (l : List (Nat × Nat × Nat)) (i1 j1 k1 : Nat)
      (out : List (Nat × Nat × Nat)) (i0 j0 : Nat),
    blocksChainBnd (i1 + k1) (j1 + k1) la lb l →
    blocksChainBnd i0 j0 i1 j1 out →
    blocksChainBnd i0 j0 la lb (collapseGo (i1, j1, k1) l out) := by
  intro l
  induction l with
  | nil =>
    intro i1 j1 k1 out i0 j0 hchain hout
    obtain ⟨hc1, hc2⟩ := hchain
    rw [collapseGo_nil]
    show blocksChainBnd i0 j0 la lb
      (if k1 ≠ 0 then out ++ [(i1, j1, k1)] else out)
    by_cases hk : k1 = 0
    · rw [if_neg (show ¬ k1 ≠ 0 from fun h => h hk)]
      exact blocksChainBnd_mono out i0 j0 i1 j1 la lb hout (by omega) (by omega)
    · rw [if_pos hk]
      exact blocksChainBnd_append out [(i1, j1, k1)] i0 j0 i1 j1 la lb hout
        ⟨le_rfl, le_rfl, hc1, hc2⟩
  | cons bl2 rest ih =>
    intro i1 j1 k1 out i0 j0 hchain hout
    obtain ⟨x2, y2, k2⟩ := bl2
    obtain ⟨hc1, hc2, hc3⟩ := hchain
    rw [collapseGo_cons]
    by_cases hadj : i1 + k1 = x2 ∧ j1 + k1 = y2
    · rw [if_pos hadj]
      refine ih i1 j1 (k1 + k2) out i0 j0 ?_ hout
      rw [show i1 + (k1 + k2) = x2 + k2 by omega,
        show j1 + (k1 + k2) = y2 + k2 by omega]
      exact hc3
    · rw [if_neg hadj]
      by_cases hk : k1 = 0
      · rw [if_neg (show ¬ k1 ≠ 0 from fun h => h hk)]
        exact ih x2 y2 k2 out i0 j0 hc3
          (blocksChainBnd_mono out i0 j0 i1 j1 x2 y2 hout (by omega) (by omega))
      · rw [if_pos hk]
        exact ih x2 y2 k2 (out ++ [(i1, j1, k1)]) i0 j0 hc3
          (blocksChainBnd_append out [(i1, j1, k1)] i0 j0 i1 j1 x2 y2 hout
            ⟨le_rfl, le_rfl, hc1, hc2⟩)

/-- The block list returned by get_matching_blocks, sentinel included, is
a chain from (0, 0) bounded by the two sequence lengths. -/
theorem get_matching_blocks_chain (a b : List String) :
    blocksChainBnd 0 0 a.length b.length (get_matching_blocks a b) := by
  have hrects : ∀ r ∈ [((0 : Nat), a.length, (0 : Nat), b.length)],
      RectOk a b r := by
    intro r hr
    rw [show r = (0, a.length, 0, b.length) by simpa using hr]
    exact ⟨Nat.zero_le _, le_rfl, Nat.zero_le _, le_rfl⟩
  obtain ⟨hsep, hpos⟩ := gmbGo_sep a b (a.length + b.length + 1)
    [(0, a.length, 0, b.length)] [] hrects
    (List.pairwise_singleton _ _)
    (by intro r _ bl hbl; simp at hbl)
    List.Pairwise.nil
    (by intro bl hbl; simp at hbl)
  have hperm := List.mergeSort_perm
    (gmbGo a b (a.length + b.length + 1) [(0, a.length, 0, b.length)] [])
    blockLe
  have hsym : ∀ {x y : Nat × Nat × Nat}, SepBB x y → SepBB y x :=
    fun h => Or.symm h
  have hsep2 := (List.Perm.pairwise_iff hsym hperm).mpr hsep
  have hpos2 : ∀ bl ∈ (gmbGo a b (a.length + b.length + 1)
      [(0, a.length, 0, b.length)] []).mergeSort blockLe, 0 < bl.2.2 :=
    fun bl hbl => hpos bl (hperm.mem_iff.mp hbl)
  have hsorted := List.sorted_mergeSort blockLe_trans blockLe_total
    (gmbGo a b (a.length + b.length + 1) [(0, a.length, 0, b.length)] [])
  have hbefore := pairwise_before_of_sorted _ hsorted hsep2 hpos2
  have hbounds : ∀ bl ∈ (gmbGo a b (a.length + b.length + 1)
      [(0, a.length, 0, b.length)] []).mergeSort blockLe,
      blockBounds a.length b.length bl := by
    intro bl hbl
    have hm := gmbGo_blockMatch a b (a.length + b.length + 1)
      [(0, a.length, 0, b.length)] [] hrects
      (by intro x hx; simp at hx) bl (hperm.mem_iff.mp hbl)
    obtain ⟨x, y, k⟩ := bl
    exact ⟨hm.1, hm.2.1⟩
  have hstart : chainStartOk 0 0 ((gmbGo a b (a.length + b.length + 1)
      [(0, a.length, 0, b.length)] []).mergeSort blockLe) := by
    cases h : (gmbGo a b (a.length + b.length + 1)
        [(0, a.length, 0, b.length)] []).mergeSort blockLe with
    | nil => trivial
    | cons bl rest =>
      obtain ⟨x, y, k⟩ := bl
      exact ⟨Nat.zero_le _, Nat.zero_le _⟩
  have hchain := chainBnd_of_pairwise a.length b.length _ 0 0 hbefore hbounds
    (Nat.zero_le _) (Nat.zero_le _) hstart
  simp only [get_matching_blocks]
  refine blocksChainBnd_append _ _ 0 0 a.length b.length a.length b.length ?_ ?_
  · exact collapseGo_chainBnd a.length b.length _ 0 0 0 [] 0 0 hchain
      ⟨le_rfl, le_rfl⟩
  · exact ⟨le_rfl, le_rfl, by omega, by omega⟩

/-- Opcodes produced by folding opcodeStep over a block list starting at
position (i, j), written as a direct recursion. -/
def opsFrom : Nat → Nat → List (Nat × Nat × Nat) → List Opcode
  | _, _, [] => []
  | i, j, (x, y, k) :: rest =>
      (if i < x ∧ j < y then [⟨"replace", i, x, j, y⟩]
       else if i < x then [⟨"delete", i, x, j, y⟩]
       else if j < y then [⟨"insert", i, x, j, y⟩] else []) ++
      ((if k ≠ 0 then [⟨"equal", x, x + k, y, y + k⟩] else []) ++
       opsFrom (x + k) (y + k) rest)

theorem opcodeStep_eq (i j : Nat) (acc : List Opcode) (x y k : Nat) :
    opcodeStep (i, j, acc) (x, y, k) =
      (x + k, y + k, acc ++
        ((if i < x ∧ j < y then [⟨"replace", i, x, j, y⟩]
          else if i < x then [⟨"delete", i, x, j, y⟩]
          else if j < y then [⟨"insert", i, x, j, y⟩] else []) ++
         (if k ≠ 0 then [(⟨"equal", x, x + k, y, y + k⟩ : Opcode)]
          else []))) := by
  simp only [opcodeStep]
  by_cases c1 : i < x ∧ j < y
  · rw [if_pos c1, if_pos c1,
      if_pos (show ("replace" : String) ≠ "" by decide)]
    by_cases hk : k ≠ 0
    · rw [if_pos hk, if_pos hk]
      simp [List.append_assoc]
    · rw [if_neg hk, if_neg hk]
      simp
  · rw [if_neg c1, if_neg c1]
    by_cases c2 : i < x
    · rw [if_pos c2, if_pos c2,
        if_pos (show ("delete" : String) ≠ "" by decide)]
      by_cases hk : k ≠ 0
      · rw [if_pos hk, if_pos hk]
        simp [List.append_assoc]
      · rw [if_neg hk, if_neg hk]
        simp
    · rw [if_neg c2, if_neg c2]
      by_cases c3 : j < y
      · rw [if_pos c3, if_pos c3,
          if_pos (show ("insert" : String) ≠ "" by decide)]
        by_cases hk : k ≠ 0
        · rw [if_pos hk, if_pos hk]
          simp [List.append_assoc]
        · rw [if_neg hk, if_neg hk]
          simp
      · rw [if_neg c3, if_neg c3,
          if_neg (show ¬ (("" : String) ≠ "") by simp)]
        by_cases hk : k ≠ 0
        · rw [if_pos hk, if_pos hk]
          simp
        · rw [if_neg hk, if_neg hk]
          simp

theorem foldl_opcodeStep_acc :
    ∀ (blocks : List (Nat × Nat × Nat)) (i j : Nat) (acc : List Opcode),
    (blocks.foldl opcodeStep (i, j, acc)).2.2 = acc ++ opsFrom i j blocks := by
  intro blocks
  induction blocks with
  | nil =>
    intro i j acc
    simp [opsFrom]
  | cons bl rest ih =>
    intro i j acc
    obtain ⟨x, y, k⟩ := bl
    rw [List.foldl_cons, opcodeStep_eq, ih (x + k) (y + k) _]
    simp only [opsFrom]
    simp [List.append_assoc]

theorem get_opcodes_eq_opsFrom (a b : List String) :
    get_opcodes a b = opsFrom 0 0 (get_matching_blocks a b) := by
  unfold get_opcodes
  rw [foldl_opcodeStep_acc]
  simp

/-- Contiguity of an opcode list: each opcode starts exactly where the
previous one ended, ranges never run backwards, and the final opcode
ends exactly at (iE, jE). -/
def opsContiguous : Nat → Nat → Nat → Nat → List Opcode → Prop
  | i, j, iE, jE, [] => i = iE ∧ j = jE
  | i, j, iE, jE, op :: rest =>
      op.i1 = i ∧ op.j1 = j ∧ i ≤ op.i2 ∧ j ≤ op.j2 ∧
        opsContiguous op.i2 op.j2 iE jE rest

theorem opsContiguous_append :
    ∀ (l1 l2 : List Opcode) (i j m n iE jE : Nat),
    opsContiguous i j m n l1 → opsContiguous m n iE jE l2 →
    opsContiguous i j iE jE (l1 ++ l2) := by
  intro l1
  induction l1 with
  | nil =>
    intro l2 i j m n iE jE h1 h2
    obtain ⟨e1, e2⟩ := h1
    rw [List.nil_append, e1, e2]
    exact h2
  | cons op rest ih =>
    intro l2 i j m n iE jE h1 h2
    obtain ⟨p1, p2, p3, p4, p5⟩ := h1
    rw [List.cons_append]
    exact ⟨p1, p2, p3, p4, ih l2 op.i2 op.j2 m n iE jE p5 h2⟩

theorem opsContiguous_le :
    ∀ (ops : List Opcode) (i j iE jE : Nat),
    opsContiguous i j iE jE ops → i ≤ iE ∧ j ≤ jE := by
  intro ops
  induction ops with
  | nil =>
    intro i j iE jE h
    obtain ⟨e1, e2⟩ := h
    omega
  | cons op rest ih =>
    intro i j iE jE h
    obtain ⟨p1, p2, p3, p4, p5⟩ := h
    have := ih op.i2 op.j2 iE jE p5
    omega

/-- Left end position after traversing a block list. -/
def blocksEndI : Nat → List (Nat × Nat × Nat) → Nat
  | i, [] => i
  | _, (x, _, k) :: rest => blocksEndI (x + k) rest

/-- Right end position after traversing a block list. -/
def blocksEndJ : Nat → List (Nat × Nat × Nat) → Nat
  | j, [] => j
  | _, (_, y, k) :: rest => blocksEndJ (y + k) rest

theorem blocksEndI_append_last :
    ∀ (l : List (Nat × Nat × Nat)) (i x y k : Nat),
    blocksEndI i (l ++ [(x, y, k)]) = x + k := by
  intro l
  induction l with
  | nil => intro i x y k; rfl
  | cons bl rest ih =>
    intro i x y k
    obtain ⟨x2, y2, k2⟩ := bl
    rw [List.cons_append]
    exact ih (x2 + k2) x y k

theorem blocksEndJ_append_last :
    ∀ (l : List (Nat × Nat × Nat)) (j x y k : Nat),
    blocksEndJ j (l ++ [(x, y, k)]) = y + k := by
  intro l
  induction l with
  | nil => intro j x y k; rfl
  | cons bl rest ih =>
    intro j x y k
    obtain ⟨x2, y2, k2⟩ := bl
    rw [List.cons_append]
    exact ih (y2 + k2) x y k

/-- Over a chained block list, opsFrom produces a contiguous opcode list
tiling exactly from the start position to the traversal end. -/
theorem opsFrom_contig (la lb : Nat) :
    ∀ (blocks : List (Nat × Nat × Nat)) (i j : Nat),
    blocksChainBnd i j la lb blocks →
    opsContiguous i j (blocksEndI i blocks) (blocksEndJ j blocks)
      (opsFrom i j blocks) := by
  intro blocks
  induction blocks with
  | nil =>
    intro i j _
    exact ⟨rfl, rfl⟩
  | cons bl rest ih =>
    intro i j hchain
    obtain ⟨x, y, k⟩ := bl
    obtain ⟨hc1, hc2, hc3⟩ := hchain
    simp only [opsFrom, blocksEndI, blocksEndJ]
    refine opsContiguous_append _ _ i j x y _ _ ?_ ?_
    · by_cases c1 : i < x ∧ j < y
      · rw [if_pos c1]
        exact ⟨rfl, rfl, Nat.le_of_lt c1.1, Nat.le_of_lt c1.2, rfl, rfl⟩
      · rw [if_neg c1]
        by_cases c2 : i < x
        · rw [if_pos c2]
          exact ⟨rfl, rfl, Nat.le_of_lt c2, hc2, rfl, rfl⟩
        · rw [if_neg c2]
          by_cases c3 : j < y
          · rw [if_pos c3]
            exact ⟨rfl, rfl, hc1, Nat.le_of_lt c3, rfl, rfl⟩
          · rw [if_neg c3]
            exact ⟨by omega, by omega⟩
    · refine opsContiguous_append _ _ x y (x + k) (y + k) _ _ ?_
        (ih (x + k) (y + k) hc3)
      by_cases hk : k ≠ 0
      · rw [if_pos hk]
        exact ⟨rfl, rfl, Nat.le_add_right x k, Nat.le_add_right y k, rfl, rfl⟩
      · rw [if_neg hk]
        have hk0 : k = 0 := not_not.mp hk
        exact ⟨by omega, by omega⟩

theorem pySlice_glue (a : List String) (i m n : Nat) (h1 : i ≤ m)
    (h2 : m ≤ n) : pySlice a i m ++ pySlice a m n = pySlice a i n := by
  unfold pySlice
  have hd : a.drop m = (a.drop i).drop (m - i) := by
    rw [List.drop_drop]
    congr 1
    omega
  rw [hd, show n - i = (m - i) + (n - m) by omega, List.take_add]

theorem opsContiguous_flatten_left (a : List String) :
    ∀ (ops : List Opcode) (i j iE jE : Nat),
    opsContiguous i j iE jE ops →
    (ops.map fun op => pySlice a op.i1 op.i2).flatten = pySlice a i iE := by
  intro ops
  induction ops with
  | nil =>
    intro i j iE jE h
    obtain ⟨e1, e2⟩ := h
    rw [← e1]
    simp [pySlice]
  | cons op rest ih =>
    intro i j iE jE h
    obtain ⟨p1, p2, p3, p4, p5⟩ := h
    have hle := opsContiguous_le rest op.i2 op.j2 iE jE p5
    rw [List.map_cons, List.flatten_cons, ih op.i2 op.j2 iE jE p5, p1,
      pySlice_glue a i op.i2 iE p3 hle.1]

theorem opsContiguous_flatten_right (b : List String) :
    ∀ (ops : List Opcode) (i j iE jE : Nat),
    opsContiguous i j iE jE ops →
    (ops.map fun op => pySlice b op.j1 op.j2).flatten = pySlice b j jE := by
  intro ops
  induction ops with
  | nil =>
    intro i j iE jE h
    obtain ⟨e1, e2⟩ := h
    rw [← e2]
    simp [pySlice]
  | cons op rest ih =>
    intro i j iE jE h
    obtain ⟨p1, p2, p3, p4, p5⟩ := h
    have hle := opsContiguous_le rest op.i2 op.j2 iE jE p5
    rw [List.map_cons, List.flatten_cons, ih op.i2 op.j2 iE jE p5, p2,
      pySlice_glue b j op.j2 jE p4 hle.2]

/-- Claim C8: the opcodes produced by the sequence aligner have ordered,
contiguous, non-overlapping ranges tiling [0, len a) x [0, len b)
exactly, and concatenating the slices referenced by the left ranges in
opcode order reconstructs the left sequence exactly; symmetrically the
right ranges reconstruct the right sequence. -/
theorem claim_c8 (a b : List String) :
    opsContiguous 0 0 a.length b.length (get_opcodes a b) ∧
    ((get_opcodes a b).map fun op => pySlice a op.i1 op.i2).flatten = a ∧
    ((get_opcodes a b).map fun op => pySlice b op.j1 op.j2).flatten = b := by
  have hEI : blocksEndI 0 (get_matching_blocks a b) = a.length := by
    simp [get_matching_blocks, blocksEndI_append_last]
  have hEJ : blocksEndJ 0 (get_matching_blocks a b) = b.length := by
    simp [get_matching_blocks, blocksEndJ_append_last]
  have hcontig : opsContiguous 0 0 a.length b.length (get_opcodes a b) := by
    rw [get_opcodes_eq_opsFrom]
    have h := opsFrom_contig a.length b.length (get_matching_blocks a b) 0 0
      (get_matching_blocks_chain a b)
    rw [hEI, hEJ] at h
    exact h
  refine ⟨hcontig, ?_, ?_⟩
  · rw [opsContiguous_flatten_left a (get_opcodes a b) 0 0
      a.length b.length hcontig]
    simp [pySlice]
  · rw [opsContiguous_flatten_right b (get_opcodes a b) 0 0
      a.length b.length hcontig]
    simp [pySlice]

theorem claim_c3_witness :
    (pad_text "a" 1 ++ " | " ++ pad_text "a" 1) ∈
      rows_for_pair ⟨"green", "blue", "yellow", "red"⟩ false false 1 "a" "a" ∧
    ∃ lh rh, pad_text "a" 1 ++ " | " ++ pad_text "a" 1 = lh ++ " | " ++ rh ∧
      visibleLen lh = 1 ∧ visibleLen rh = 1 := by
  have hwd : word_diff "a" "a" ⟨"green", "blue", "yellow", "red"⟩ false false
      = ("a", "a") := by
    simp only [word_diff]
    rw [show pySplit "a" = ["a"] from rfl, get_opcodes_self]
    rfl
  have hmem : (pad_text "a" 1 ++ " | " ++ pad_text "a" 1) ∈
      rows_for_pair ⟨"green", "blue", "yellow", "red"⟩ false false 1 "a" "a" := by
    simp only [rows_for_pair]
    rw [hwd]
    refine List.mem_map.mpr ⟨("a", "a"), ?_, rfl⟩
    decide
  exact ⟨hmem,
    claim_c3 ⟨"green", "blue", "yellow", "red"⟩ false false 1 "a" "a" _ hmem⟩

end Worddiff
